import Mathlib

/-!
# Verification of the GradCafe incremental harvesting pipeline

Shallow embedding of the scrape/clean/load pipeline of
`src/module_5/src/{scrape_update,clean_update,load_update}.py`.
Strings are modelled as `List Char`; Python `str | None` becomes
`Option Str`.  URL handling models the relevant fragment of CPython's
`urllib.parse` (`urlsplit`/`urlunsplit`): scheme extraction, `//`-netloc
extraction (with the IPv6 bracket-mismatch `ValueError`), fragment and
query splitting.  The `params` (`;`) component of `urlparse` is not
modelled: the pipeline never touches it and it round-trips through
`geturl` unchanged (up to a trailing-`;` drop that cannot affect the
properties proved here).
-/

namespace GradCafe

abbrev Str := List Char

/-! ## Character and string utilities (ASCII models of the Python builtins) -/

/-- ASCII model of Python `str.lower` on a single character. -/
def lowerChar (c : Char) : Char :=
  if 'A' ≤ c ∧ c ≤ 'Z' then Char.ofNat (c.toNat + 32) else c

/-- ASCII model of Python `str.upper` on a single character. -/
def upperChar (c : Char) : Char :=
  if 'a' ≤ c ∧ c ≤ 'z' then Char.ofNat (c.toNat - 32) else c

def lowerStr (s : Str) : Str := s.map lowerChar

/-- Python whitespace as used by `str.strip` / regex `\s` (ASCII part). -/
def isPySpace (c : Char) : Bool :=
  c = ' ' ∨ c = '\t' ∨ c = '\n' ∨ c = '\x0d' ∨ c = '\x0b' ∨ c = '\x0c'

/-- Model of Python `str.strip()`. -/
def stripStr (s : Str) : Str :=
  ((s.dropWhile isPySpace).reverse.dropWhile isPySpace).reverse

/-- `strPrefix p s` is true when `p` is a prefix of `s` (Python `startswith`). -/
def strPrefix : Str → Str → Bool
  | [], _ => true
  | _ :: _, [] => false
  | a :: as, b :: bs => a = b && strPrefix as bs

/-- Python `endswith`. -/
def strSuffix (p s : Str) : Bool := strPrefix p.reverse s.reverse

/-- `containsSub s pat` is true when `pat` occurs in `s` (Python `in`). -/
def containsSub : Str → Str → Bool
  | s@([]), pat => strPrefix pat s
  | s@(_ :: rest), pat => strPrefix pat s || containsSub rest pat

/-- Split at the first occurrence of `ch`: `some (before, after)`, or `none`
when `ch` does not occur. -/
def splitFirst (ch : Char) : Str → Option (Str × Str)
  | [] => none
  | c :: rest =>
    if c = ch then some ([], rest)
    else
      match splitFirst ch rest with
      | some (pre, post) => some (c :: pre, post)
      | none => none

theorem splitFirst_none {ch : Char} {s : Str} (h : splitFirst ch s = none) :
    ch ∉ s := by
  induction s with
  | nil => simp
  | cons c rest ih =>
    simp only [splitFirst] at h
    by_cases hc : c = ch
    · simp [hc] at h
    · cases hsp : splitFirst ch rest with
      | none =>
        intro hmem
        rcases List.mem_cons.mp hmem with h1 | h2
        · exact hc h1.symm
        · exact ih hsp h2
      | some p => simp [hc, hsp] at h

theorem splitFirst_some {ch : Char} {s pre post : Str}
    (h : splitFirst ch s = some (pre, post)) :
    s = pre ++ ch :: post ∧ ch ∉ pre := by
  induction s generalizing pre post with
  | nil => simp [splitFirst] at h
  | cons c rest ih =>
    by_cases hc : c = ch
    · simp only [splitFirst, if_pos hc, Option.some.injEq, Prod.mk.injEq] at h
      obtain ⟨h1, h2⟩ := h
      subst hc
      simp [← h1, ← h2]
    · simp only [splitFirst, if_neg hc] at h
      cases hsp : splitFirst ch rest with
      | none => rw [hsp] at h; simp at h
      | some p =>
        obtain ⟨p1, p2⟩ := p
        rw [hsp] at h
        simp only [Option.some.injEq, Prod.mk.injEq] at h
        obtain ⟨h1, h2⟩ := h
        subst h2
        obtain ⟨hrest, hnot⟩ := ih hsp
        refine ⟨?_, ?_⟩
        · rw [← h1]; simp [hrest]
        · rw [← h1]
          intro hmem
          rcases List.mem_cons.mp hmem with h1' | h2'
          · exact hc h1'.symm
          · exact hnot h2'

theorem splitFirst_not_mem {ch : Char} {s : Str} (h : ch ∉ s) :
    splitFirst ch s = none := by
  induction s with
  | nil => rfl
  | cons c rest ih =>
    simp only [List.mem_cons, not_or] at h
    rw [splitFirst, if_neg (fun hc => h.1 hc.symm), ih h.2]

/-! ## Model of `urllib.parse.urlsplit` / `urlunsplit`

Faithful to CPython's `urlsplit` for the components the pipeline uses:
scheme extraction (`find(':')` with the scheme-character check), netloc
extraction after a leading `//` (up to the first of `/?#`, with the IPv6
bracket-mismatch `ValueError`, modelled as `none`), then fragment and
query splitting.  `urlunsplit` reassembles exactly as CPython does. -/

structure SplitResult where
  scheme : Str
  netloc : Str
  path : Str
  query : Str
  fragment : Str
deriving DecidableEq, Repr

/-- CPython `scheme_chars = ascii_letters + digits + '+-.'`. -/
def isSchemeChar (c : Char) : Bool :=
  c.isAlpha || c.isDigit || c = '+' || c = '-' || c = '.'

def netlocDelim (c : Char) : Bool := c = '/' || c = '?' || c = '#'

/-- Scheme extraction: `i = url.find(':'); if i > 0 and url[:i] is all
scheme chars: scheme, rest = url[:i].lower(), url[i+1:]`. -/
def splitScheme (url : Str) : Str × Str :=
  match splitFirst ':' url with
  | some (pre, post) =>
    if pre ≠ [] ∧ pre.all isSchemeChar then (lowerStr pre, post) else ([], url)
  | none => ([], url)

/-- Netloc extraction: when the remainder starts with `//`, the netloc
runs to the first of `/?#`. -/
def splitNetloc (rest : Str) : Str × Str :=
  if strPrefix ['/', '/'] rest then
    let body := rest.drop 2
    (body.takeWhile (fun c => !netlocDelim c), body.dropWhile (fun c => !netlocDelim c))
  else ([], rest)

/-- CPython's IPv6 sanity check: `'[' in netloc` xor-style mismatch. -/
def bracketMismatch (netloc : Str) : Bool :=
  (netloc.contains '[' && !netloc.contains ']') ||
  (netloc.contains ']' && !netloc.contains '[')

/-- Fragment split: everything after the first `#`. -/
def splitFragment (rest : Str) : Str × Str :=
  match splitFirst '#' rest with
  | some (pre, post) => (pre, post)
  | none => (rest, [])

/-- Query split: everything after the first `?`. -/
def splitQuery (rest : Str) : Str × Str :=
  match splitFirst '?' rest with
  | some (pre, post) => (pre, post)
  | none => (rest, [])

/-- `urlsplit`; `none` models the `ValueError` raised on an IPv6 bracket
mismatch in the netloc. -/
def urlsplit (url : Str) : Option SplitResult :=
  let sr := splitScheme url
  let nr := splitNetloc sr.2
  if bracketMismatch nr.1 then none
  else
    let rf := splitFragment nr.2
    let pq := splitQuery rf.1
    some ⟨sr.1, nr.1, pq.1, pq.2, rf.2⟩

/-- CPython `urlunsplit`. -/
def urlunsplit (r : SplitResult) : Str :=
  let url := r.path
  let url :=
    if r.netloc ≠ [] ∨ (url ≠ [] ∧ strPrefix ['/', '/'] url) then
      let url := if url ≠ [] ∧ ¬ strPrefix ['/'] url then '/' :: url else url
      '/' :: '/' :: (r.netloc ++ url)
    else url
  let url := if r.scheme ≠ [] then r.scheme ++ ':' :: url else url
  let url := if r.query ≠ [] then url ++ '?' :: r.query else url
  if r.fragment ≠ [] then url ++ '#' :: r.fragment else url

/-! ## `scrape_update._canonical_result_url` and `_valid_result_url` -/

def BARE_HOST : Str := "thegradcafe.com".toList
def WWW_HOST : Str := "www.thegradcafe.com".toList

/-- The netloc rewriting of `_canonical_result_url`:
`netloc = clean.netloc or "www.thegradcafe.com"`, then bare host →
`www` host. -/
def canonicalNetloc (netloc : Str) : Str :=
  let n := if netloc = [] then WWW_HOST else netloc
  if n = BARE_HOST then WWW_HOST else n

/-- `scrape_update._canonical_result_url`: strip query and fragment, force
`https`, default/collapse the host to `www.thegradcafe.com`.  The Python
function returns `None` for `None`/empty input and returns the input
unchanged when `urlparse` raises (modelled by `urlsplit = none`). -/
def canonical_result_url : Option Str → Option Str
  | none => none
  | some url =>
    if url = [] then none
    else
      match urlsplit url with
      | none => some url
      | some p =>
        some (urlunsplit { scheme := "https".toList, netloc := canonicalNetloc p.netloc,
                           path := p.path, query := [], fragment := [] })

/-- `scrape_update._valid_result_url`: netloc ends with `thegradcafe.com`
and path starts with `/result/`; `False` for `None`/empty input or when
`urlparse` raises. -/
def valid_result_url : Option Str → Bool
  | none => false
  | some url =>
    if url = [] then false
    else
      match urlsplit url with
      | none => false
      | some p => strSuffix BARE_HOST p.netloc && strPrefix "/result/".toList p.path

example :
    canonical_result_url (some "http://thegradcafe.com/result/5?x=1#f".toList)
      = some "https://www.thegradcafe.com/result/5".toList := by decide

example : valid_result_url (some "https://example.com/result/5".toList) = false := by decide

example : valid_result_url (some "https://evilthegradcafe.com/result/5".toList) = true := by
  decide

example : valid_result_url (some "https://www.thegradcafe.com/result/5".toList) = true := by
  decide

/-- The host component `urlsplit` extracts from a URL (empty when the URL
has no `//`-netloc or fails to parse). -/
def url_host (url : Str) : Str :=
  match urlsplit url with
  | some p => p.netloc
  | none => []

/-- Specification-side definition (from the spec's words, for comparison
with the code): a host "matches the target domain" when it is exactly
`thegradcafe.com` or a subdomain of it (i.e. ends in `.thegradcafe.com`). -/
def spec_host_is_target (host : Str) : Bool :=
  host = BARE_HOST || strSuffix ('.' :: BARE_HOST) host

/-- C4 counterexample: `_valid_result_url` checks the host with a bare
`endswith("thegradcafe.com")`, so the non-target host
`evilthegradcafe.com` (neither the target domain nor one of its
subdomains) is accepted, refuting "no URL on a non-target host is ever
accepted". -/
theorem valid_url_accepts_suffix_host :
    valid_result_url (some "https://evilthegradcafe.com/result/5".toList) = true ∧
    spec_host_is_target (url_host "https://evilthegradcafe.com/result/5".toList) = false := by
  decide

/-- C4 (amended): `_valid_result_url` returns `false` for every URL whose
host does not end with the string `thegradcafe.com` — in particular for
`https://example.com/result/5` — but the host check is a bare suffix
test, so a non-target host that merely ends in that string (such as
`evilthegradcafe.com`) is accepted when its path starts with `/result/`. -/
theorem valid_url_rejects_non_suffix_hosts :
    (∀ url : Str, strSuffix BARE_HOST (url_host url) = false →
      valid_result_url (some url) = false) ∧
    valid_result_url (some "https://example.com/result/5".toList) = false := by
  refine ⟨?_, by decide⟩
  intro url h
  by_cases hurl : url = []
  · simp [valid_result_url, hurl]
  · simp only [valid_result_url, if_neg hurl]
    cases hsp : urlsplit url with
    | none => rfl
    | some p =>
      simp only [url_host, hsp] at h
      simp [h]

/-- Witness for `valid_url_rejects_non_suffix_hosts`. -/
theorem valid_url_rejects_non_suffix_hosts_witness :
    valid_result_url (some "https://example.com/result/5".toList) = false :=
  valid_url_rejects_non_suffix_hosts.1 "https://example.com/result/5".toList (by decide)

/-! ## Idempotence of canonicalization (claim C6) -/

theorem splitFirst_eq_some_of {ch : Char} {pre post : Str} (h : ch ∉ pre) :
    splitFirst ch (pre ++ ch :: post) = some (pre, post) := by
  induction pre with
  | nil => simp [splitFirst]
  | cons c rest ih =>
    simp only [List.mem_cons, not_or] at h
    have hc : ¬ (c = ch) := fun hcc => h.1 hcc.symm
    rw [List.cons_append, splitFirst, if_neg hc, ih h.2]

theorem takeWhile_append_all {p : Char → Bool} {l₁ l₂ : Str}
    (h1 : ∀ c ∈ l₁, p c = true)
    (h2 : match l₂ with | [] => True | c :: _ => p c = false) :
    (l₁ ++ l₂).takeWhile p = l₁ ∧ (l₁ ++ l₂).dropWhile p = l₂ := by
  induction l₁ with
  | nil =>
    cases l₂ with
    | nil => simp
    | cons c t => simp only [List.nil_append]; simp [List.takeWhile, List.dropWhile, h2]
  | cons c rest ih =>
    have hc : p c = true := h1 c (List.mem_cons_self c rest)
    have := ih (fun x hx => h1 x (List.mem_cons_of_mem c hx))
    simp [List.takeWhile, List.dropWhile, hc, this.1, this.2]

theorem urlsplit_inv {url : Str} {p : SplitResult} (h : urlsplit url = some p) :
    (∀ c ∈ p.netloc, netlocDelim c = false) ∧
    bracketMismatch p.netloc = false ∧
    '#' ∉ p.path ∧ '?' ∉ p.path := by
  simp only [urlsplit] at h
  by_cases hbr : bracketMismatch (splitNetloc (splitScheme url).2).1 = true
  · rw [if_pos hbr] at h; exact absurd h (by simp)
  · rw [if_neg hbr] at h
    simp only [Option.some.injEq] at h
    subst h
    simp only [Bool.not_eq_true] at hbr
    refine ⟨?_, hbr, ?_, ?_⟩
    · intro c hc
      simp only [splitNetloc] at hc ⊢
      by_cases hpre : strPrefix ['/', '/'] (splitScheme url).2 = true
      · rw [if_pos hpre] at hc
        have := List.mem_takeWhile_imp hc
        simpa using this
      · rw [if_neg hpre] at hc
        exact absurd hc (List.not_mem_nil c)
    · -- '#' not in path: path is a prefix-part of the '#'-free part
      simp only [splitQuery]
      cases hq : splitFirst '?' (splitFragment (splitNetloc (splitScheme url).2).2).1 with
      | none =>
        simp only
        -- path = fragment-free remainder
        simp only [splitFragment]
        cases hf : splitFirst '#' (splitNetloc (splitScheme url).2).2 with
        | none => simpa using splitFirst_none hf
        | some pr =>
          obtain ⟨pr1, pr2⟩ := pr
          simpa using (splitFirst_some hf).2
      | some pr =>
        obtain ⟨pr1, pr2⟩ := pr
        simp only
        have hmem : ∀ c ∈ pr1, c ∈ (splitFragment (splitNetloc (splitScheme url).2).2).1 := by
          intro c hc
          rw [(splitFirst_some hq).1]
          exact List.mem_append_left _ hc
        intro hcontra
        have hin := hmem _ hcontra
        simp only [splitFragment] at hin
        cases hf : splitFirst '#' (splitNetloc (splitScheme url).2).2 with
        | none =>
          rw [hf] at hin
          exact splitFirst_none hf hin
        | some pr' =>
          obtain ⟨pr1', pr2'⟩ := pr'
          rw [hf] at hin
          exact (splitFirst_some hf).2 hin
    · -- '?' not in path
      simp only [splitQuery]
      cases hq : splitFirst '?' (splitFragment (splitNetloc (splitScheme url).2).2).1 with
      | none => simpa using splitFirst_none hq
      | some pr =>
        obtain ⟨pr1, pr2⟩ := pr
        simpa using (splitFirst_some hq).2

/-- The path adjustment `urlunsplit` performs when a netloc is present:
prepend `/` to a nonempty path that does not already start with one. -/
def normalizePath (path : Str) : Str :=
  if path ≠ [] ∧ ¬ strPrefix ['/'] path then '/' :: path else path

theorem urlunsplit_https {n : Str} (path : Str) (hn : n ≠ []) :
    urlunsplit ⟨"https".toList, n, path, [], []⟩ =
      "https".toList ++ ':' :: '/' :: '/' :: (n ++ normalizePath path) := by
  simp only [urlunsplit, normalizePath]
  rw [if_pos (Or.inl hn)]
  simp

theorem strPrefix_single {c : Char} {s : Str} (h : strPrefix [c] s = true) :
    ∃ t, s = c :: t := by
  cases s with
  | nil => simp [strPrefix] at h
  | cons b t =>
    simp only [strPrefix, Bool.and_eq_true, decide_eq_true_eq] at h
    exact ⟨t, by rw [h.1]⟩

theorem normalizePath_shape (path : Str) :
    normalizePath path = [] ∨ ∃ t, normalizePath path = '/' :: t := by
  by_cases h : path ≠ [] ∧ ¬ strPrefix ['/'] path
  · right; exact ⟨path, by simp [normalizePath, h]⟩
  · rw [not_and_or, not_not, not_not] at h
    rcases h with h | h
    · left; simp [normalizePath, h]
    · right
      obtain ⟨t, ht⟩ := strPrefix_single h
      refine ⟨t, ?_⟩
      subst ht
      simp only [normalizePath]
      rw [if_neg]
      rw [not_and_or, not_not]
      right
      exact not_not_intro h

theorem mem_normalizePath {c : Char} {path : Str} (h : c ∈ normalizePath path) :
    c ∈ path ∨ c = '/' := by
  simp only [normalizePath] at h
  by_cases hc : path ≠ [] ∧ ¬ strPrefix ['/'] path
  · rw [if_pos hc] at h
    rcases List.mem_cons.mp h with h | h
    · right; exact h
    · left; exact h
  · rw [if_neg hc] at h
    left; exact h

theorem canonicalNetloc_cases (m : Str) :
    canonicalNetloc m = WWW_HOST ∨
      (canonicalNetloc m = m ∧ m ≠ [] ∧ m ≠ BARE_HOST) := by
  simp only [canonicalNetloc]
  by_cases h1 : m = []
  · rw [if_pos h1]
    by_cases h2 : WWW_HOST = BARE_HOST
    · rw [if_pos h2]; left; rfl
    · rw [if_neg h2]; left; rfl
  · rw [if_neg h1]
    by_cases h2 : m = BARE_HOST
    · rw [if_pos h2]; left; rfl
    · rw [if_neg h2]; right; exact ⟨rfl, h1, h2⟩

theorem canonicalNetloc_ne_nil (m : Str) : canonicalNetloc m ≠ [] := by
  rcases canonicalNetloc_cases m with h | ⟨h, hnil, _⟩ <;> rw [h]
  · decide
  · exact hnil

theorem canonicalNetloc_ne_bare (m : Str) : canonicalNetloc m ≠ BARE_HOST := by
  rcases canonicalNetloc_cases m with h | ⟨h, _, hb⟩ <;> rw [h]
  · decide
  · exact hb

theorem canonicalNetloc_delim {m : Str} (h : ∀ c ∈ m, netlocDelim c = false) :
    ∀ c ∈ canonicalNetloc m, netlocDelim c = false := by
  rcases canonicalNetloc_cases m with hc | ⟨hc, _, _⟩ <;> rw [hc]
  · decide
  · exact h

theorem canonicalNetloc_bracket {m : Str} (h : bracketMismatch m = false) :
    bracketMismatch (canonicalNetloc m) = false := by
  rcases canonicalNetloc_cases m with hc | ⟨hc, _, _⟩ <;> rw [hc]
  · decide
  · exact h

/-- Re-parsing a canonical output `https://<netloc><path>` recovers its
components exactly. -/
theorem urlsplit_https {n path2 : Str}
    (hdelim : ∀ c ∈ n, netlocDelim c = false)
    (hbr : bracketMismatch n = false)
    (hpath : path2 = [] ∨ ∃ t, path2 = '/' :: t)
    (hnohash : '#' ∉ path2) (hnoq : '?' ∉ path2) :
    urlsplit ("https".toList ++ ':' :: '/' :: '/' :: (n ++ path2)) =
      some ⟨"https".toList, n, path2, [], []⟩ := by
  have hscheme : splitScheme ("https".toList ++ ':' :: '/' :: '/' :: (n ++ path2)) =
      ("https".toList, '/' :: '/' :: (n ++ path2)) := by
    have hsf := @splitFirst_eq_some_of ':' "https".toList
      ('/' :: '/' :: (n ++ path2)) (by decide)
    simp only [splitScheme, hsf]
    rw [if_pos ⟨by decide, by decide⟩]
    rw [show lowerStr "https".toList = "https".toList from by decide]
  have htk := @takeWhile_append_all (fun c => !netlocDelim c) n path2
    (fun c hc => by simp [hdelim c hc])
    (by
      rcases hpath with h | ⟨t, h⟩ <;> rw [h]
      · trivial
      · show (!netlocDelim '/') = false
        decide)
  have hnet : splitNetloc ('/' :: '/' :: (n ++ path2)) = (n, path2) := by
    simp only [splitNetloc]
    rw [if_pos (by simp [strPrefix])]
    simp only [List.drop_succ_cons, List.drop_zero]
    rw [htk.1, htk.2]
  have hf : splitFragment path2 = (path2, []) := by
    simp [splitFragment, splitFirst_not_mem hnohash]
  have hq : splitQuery path2 = (path2, []) := by
    simp [splitQuery, splitFirst_not_mem hnoq]
  simp only [urlsplit, hscheme, hnet, hf, hq, hbr]
  simp

/-- `_canonical_result_url` on a parseable nonempty URL, in closed form. -/
theorem canonical_some_eq {url : Str} {p : SplitResult}
    (hurl : url ≠ []) (hsp : urlsplit url = some p) :
    canonical_result_url (some url) =
      some ("https".toList ++ ':' :: '/' :: '/' ::
        (canonicalNetloc p.netloc ++ normalizePath p.path)) := by
  simp only [canonical_result_url, if_neg hurl, hsp]
  rw [urlunsplit_https p.path (canonicalNetloc_ne_nil p.netloc)]

/-- A canonical output string is a fixed point of `_canonical_result_url`. -/
theorem canonical_fixed {n path2 : Str} (hn : n ≠ []) (hnB : n ≠ BARE_HOST)
    (hdelim : ∀ c ∈ n, netlocDelim c = false) (hbr : bracketMismatch n = false)
    (hpath : path2 = [] ∨ ∃ t, path2 = '/' :: t)
    (hnohash : '#' ∉ path2) (hnoq : '?' ∉ path2) :
    canonical_result_url (some ("https".toList ++ ':' :: '/' :: '/' :: (n ++ path2))) =
      some ("https".toList ++ ':' :: '/' :: '/' :: (n ++ path2)) := by
  have hne : ("https".toList ++ ':' :: '/' :: '/' :: (n ++ path2) : Str) ≠ [] := by simp
  rw [canonical_some_eq hne (urlsplit_https hdelim hbr hpath hnohash hnoq)]
  have hcn : canonicalNetloc n = n := by
    rcases canonicalNetloc_cases n with h | ⟨h, _, _⟩
    · rcases canonicalNetloc_cases n with h' | ⟨h', _, _⟩
      · -- n itself must already be the www host or unchanged; recompute directly
        simp only [canonicalNetloc] at h ⊢
        rw [if_neg hn] at h ⊢
        rw [if_neg hnB] at h ⊢
      · exact h'
    · exact h
  have hnp : normalizePath path2 = path2 := by
    rcases hpath with h | ⟨t, h⟩ <;> subst h
    · rfl
    · simp only [normalizePath]
      rw [if_neg]
      rw [not_and_or]
      right
      rw [not_not]
      simp [strPrefix]
  rw [hcn, hnp]

/-- C6 — confirmed: `_canonical_result_url` is idempotent on every input
(`None`, empty, unparseable and parseable URLs alike), and on the concrete
example it strips the query string and fragment, forces the `https`
scheme, and collapses the bare host into the `www` host. -/
theorem canonicalize_idempotent_and_strips :
    (∀ x : Option Str,
      canonical_result_url (canonical_result_url x) = canonical_result_url x) ∧
    canonical_result_url (some "http://thegradcafe.com/result/5?x=1#f".toList) =
      some "https://www.thegradcafe.com/result/5".toList := by
  refine ⟨?_, by decide⟩
  intro x
  match x with
  | none => rfl
  | some url =>
    by_cases hurl : url = []
    · subst hurl
      rfl
    · cases hsp : urlsplit url with
      | none =>
        have h1 : canonical_result_url (some url) = some url := by
          simp [canonical_result_url, if_neg hurl, hsp]
        rw [h1, h1]
      | some p =>
        obtain ⟨hdelim, hbr, hnohash, hnoq⟩ := urlsplit_inv hsp
        rw [canonical_some_eq hurl hsp]
        have hnohash2 : '#' ∉ normalizePath p.path := by
          intro hmem
          rcases mem_normalizePath hmem with h | h
          · exact hnohash h
          · exact absurd h (by decide)
        have hnoq2 : '?' ∉ normalizePath p.path := by
          intro hmem
          rcases mem_normalizePath hmem with h | h
          · exact hnoq h
          · exact absurd h (by decide)
        exact canonical_fixed (canonicalNetloc_ne_nil _) (canonicalNetloc_ne_bare _)
          (canonicalNetloc_delim hdelim) (canonicalNetloc_bracket hbr)
          (normalizePath_shape _) hnohash2 hnoq2

/-! ## The harvest loop of `scrape_update.scrape_data`

A raw record as produced by `_parse_survey_page` (identity and decision
fields) and later enriched in place from the detail page. -/

structure RawRecord where
  program_name_raw : Option Str := none
  university_raw : Option Str := none
  comments : Option Str := none
  date_posted : Option Str := none
  entry_url : Option Str := none
  applicant_status : Option Str := none
  accepted_date : Option Str := none
  rejected_date : Option Str := none
  start_term : Option Str := none
  start_year : Option Str := none
  is_international : Option Bool := none
  gre_total : Option Str := none
  gre_v : Option Str := none
  gre_aw : Option Str := none
  degree : Option Str := none
  degree_level : Option Str := none
  gpa : Option Str := none
  source_url : Option Str := none
  scraped_at : Option Str := none
deriving DecidableEq, Repr

/-- Row handling of `scrape_data` given the row's canonicalized URL:
skip the row when the URL is invalid (`if not _valid_result_url(u):
continue` — note `_valid_result_url(None)` is `False`, so URL-less rows
are skipped) or already seen, otherwise register the URL and append the
record with the canonical URL written back into it. -/
def pageStepAux (acc : (List Str × List RawRecord) × Nat) (rec : RawRecord) :
    Option Str → (List Str × List RawRecord) × Nat
  | none => acc
  | some s =>
    if valid_result_url (some s) = true then
      if s ∈ acc.1.1 then acc
      else ((s :: acc.1.1, acc.1.2 ++ [{ rec with entry_url := some s }]), acc.2 + 1)
    else acc

/-- One iteration of the per-row loop in `scrape_data`.
State: `((seen_urls, records), added)`. -/
def pageStep (acc : (List Str × List RawRecord) × Nat) (rec : RawRecord) :
    (List Str × List RawRecord) × Nat :=
  pageStepAux acc rec (canonical_result_url rec.entry_url)

/-- Processing one fetched listing page: fold the row loop with the
page-local `added` counter reset to 0. -/
def processPage (st : List Str × List RawRecord) (page : List RawRecord) :
    (List Str × List RawRecord) × Nat :=
  page.foldl pageStep (st, 0)

/-- The dedup portion of a whole run over successfully fetched pages:
`seen_urls` is seeded from the persisted store, `records` starts empty. -/
def harvest (seed : List Str) (pages : List (List RawRecord)) :
    List Str × List RawRecord :=
  pages.foldl (fun st page => (processPage st page).1) (seed, [])

/-- `STOP_AFTER_PAGES_WITH_NO_NEW` in `scrape_update`. -/
def STOP_AFTER_PAGES_WITH_NO_NEW : Nat := 2

/-- The page loop of `scrape_data` with fetch outcomes supplied as an
oracle (`none` = `_safe_fetch_html` returned no payload).  A failed page
is skipped with `continue`; a fetched page updates the
consecutive-no-new counter and may trigger the early stop.  Returns the
final `(seen_urls, records)` state and whether the early stop fired. -/
def scrape_pages :
    List (Option (List RawRecord)) → List Str × List RawRecord → Nat →
      (List Str × List RawRecord) × Bool
  | [], st, _ => (st, false)
  | none :: rest, st, cnt => scrape_pages rest st cnt
  | some page :: rest, st, cnt =>
    let r := processPage st page
    let cnt' := if r.2 = 0 then cnt + 1 else 0
    if STOP_AFTER_PAGES_WITH_NO_NEW ≤ cnt' then (r.1, true)
    else scrape_pages rest r.1 cnt'

/-- Number of retained records carrying canonical URL `u`. -/
def countUrl (records : List RawRecord) (u : Str) : Nat :=
  records.countP (fun r => decide (r.entry_url = some u))

/-- The canonical URL of a listing row, if it is a valid detail URL. -/
def canonValidUrl (r : RawRecord) : Option Str :=
  let u := canonical_result_url r.entry_url
  if valid_result_url u then u else none

/-- Number of listing rows across all pages whose canonical, valid detail
URL is `u`. -/
def occCount (pages : List (List RawRecord)) (u : Str) : Nat :=
  pages.flatten.countP (fun r => decide (canonValidUrl r = some u))

/-- `∃` form of "some retained record carries URL `u`". -/
def hasUrl (records : List RawRecord) (u : Str) : Prop :=
  ∃ r ∈ records, r.entry_url = some u

/-- The `(seen, records)` component of one row step, independent of the
page-local `added` counter. -/
def step1 (st : List Str × List RawRecord) (rec : RawRecord) :
    List Str × List RawRecord :=
  (pageStep (st, 0) rec).1

theorem pageStep_fst (st : List Str × List RawRecord) (n : Nat) (rec : RawRecord) :
    (pageStep (st, n) rec).1 = step1 st rec := by
  simp only [pageStep, step1]
  cases canonical_result_url rec.entry_url with
  | none => rfl
  | some s =>
    simp only [pageStepAux]
    by_cases hv : valid_result_url (some s) = true
    · rw [if_pos hv, if_pos hv]
      by_cases hs : s ∈ st.1 <;> simp [hs]
    · rw [if_neg hv, if_neg hv]

theorem foldl_pageStep_fst (page : List RawRecord) (st : List Str × List RawRecord)
    (n : Nat) : (page.foldl pageStep (st, n)).1 = page.foldl step1 st := by
  induction page generalizing st n with
  | nil => rfl
  | cons r rest ih =>
    rw [List.foldl_cons, List.foldl_cons, ← pageStep_fst st n r]
    exact ih _ _

theorem harvest_eq_foldl (seed : List Str) (pages : List (List RawRecord)) :
    harvest seed pages = pages.flatten.foldl step1 (seed, []) := by
  suffices h : ∀ st, pages.foldl (fun st page => (processPage st page).1) st =
      pages.flatten.foldl step1 st from h (seed, [])
  induction pages with
  | nil => intro st; rfl
  | cons p rest ih =>
    intro st
    rw [List.foldl_cons, List.flatten_cons, List.foldl_append]
    rw [show (processPage st p).1 = p.foldl step1 st from foldl_pageStep_fst p st 0]
    exact ih _

theorem step1_seen_mono {u : Str} {st : List Str × List RawRecord} (rec : RawRecord)
    (h : u ∈ st.1) : u ∈ (step1 st rec).1 := by
  simp only [step1, pageStep]
  cases canonical_result_url rec.entry_url with
  | none => exact h
  | some s =>
    simp only [pageStepAux]
    by_cases hv : valid_result_url (some s) = true
    · rw [if_pos hv]
      by_cases hs : s ∈ st.1
      · rw [if_pos hs]; exact h
      · rw [if_neg hs]; exact List.mem_cons_of_mem _ h
    · rw [if_neg hv]; exact h

theorem foldl_step1_seen_mono {u : Str} (rows : List RawRecord)
    {st : List Str × List RawRecord} (h : u ∈ st.1) :
    u ∈ (rows.foldl step1 st).1 := by
  induction rows generalizing st with
  | nil => exact h
  | cons r rest ih => exact ih (step1_seen_mono r h)

theorem canonValidUrl_some {r : RawRecord} {u : Str} (h : canonValidUrl r = some u) :
    canonical_result_url r.entry_url = some u ∧
      valid_result_url (some u) = true := by
  simp only [canonValidUrl] at h
  by_cases hv : valid_result_url (canonical_result_url r.entry_url) = true
  · rw [if_pos hv] at h
    exact ⟨h, h ▸ hv⟩
  · rw [if_neg hv] at h
    exact absurd h (by simp)

theorem step1_seen_of_occ {u : Str} {st : List Str × List RawRecord} {rec : RawRecord}
    (h : canonValidUrl rec = some u) : u ∈ (step1 st rec).1 := by
  obtain ⟨hc, hv⟩ := canonValidUrl_some h
  simp only [step1, pageStep, hc, pageStepAux]
  rw [if_pos hv]
  by_cases hs : u ∈ st.1
  · rw [if_pos hs]; exact hs
  · rw [if_neg hs]; exact List.mem_cons_self _ _

theorem foldl_step1_seen_of_occ {u : Str} {rows : List RawRecord}
    {st : List Str × List RawRecord} {rec : RawRecord} (hmem : rec ∈ rows)
    (h : canonValidUrl rec = some u) : u ∈ (rows.foldl step1 st).1 := by
  induction rows generalizing st with
  | nil => exact absurd hmem (List.not_mem_nil rec)
  | cons r rest ih =>
    rcases List.mem_cons.mp hmem with heq | htl
    · subst heq
      exact foldl_step1_seen_mono rest (step1_seen_of_occ h)
    · exact ih htl

theorem countUrl_append (l₁ l₂ : List RawRecord) (u : Str) :
    countUrl (l₁ ++ l₂) u = countUrl l₁ u + countUrl l₂ u :=
  List.countP_append _ _ _

theorem countUrl_eq_zero {l : List RawRecord} {u : Str} :
    countUrl l u = 0 ↔ ¬ hasUrl l u := by
  simp only [countUrl, hasUrl, List.countP_eq_zero, decide_eq_true_eq]
  constructor
  · rintro h ⟨r, hr, hu⟩; exact h r hr hu
  · rintro h r hr hu; exact h ⟨r, hr, hu⟩

theorem countUrl_pos {l : List RawRecord} {u : Str} :
    0 < countUrl l u ↔ hasUrl l u := by
  simp only [countUrl, hasUrl, List.countP_pos_iff, decide_eq_true_eq]

/-- The dedup invariant: every URL is carried by at most one retained
record, and `seen` is exactly the seed together with the retained URLs. -/
def dedupInv (seed : List Str) (st : List Str × List RawRecord) : Prop :=
  (∀ u, countUrl st.2 u ≤ 1) ∧ (∀ u, u ∈ st.1 ↔ u ∈ seed ∨ hasUrl st.2 u)

theorem step1_inv {seed : List Str} {st : List Str × List RawRecord}
    (h : dedupInv seed st) (rec : RawRecord) : dedupInv seed (step1 st rec) := by
  obtain ⟨h1, h2⟩ := h
  simp only [step1, pageStep]
  cases canonical_result_url rec.entry_url with
  | none => exact ⟨h1, h2⟩
  | some s =>
    simp only [pageStepAux]
    by_cases hv : valid_result_url (some s) = true
    · rw [if_pos hv]
      by_cases hs : s ∈ st.1
      · rw [if_pos hs]; exact ⟨h1, h2⟩
      · rw [if_neg hs]
        have hno : ¬ hasUrl st.2 s := fun hhas => hs ((h2 s).mpr (Or.inr hhas))
        have hzero : countUrl st.2 s = 0 := countUrl_eq_zero.mpr hno
        constructor
        · intro u
          rw [countUrl_append]
          by_cases hu : u = s
          · subst hu
            rw [hzero]
            simp [countUrl]
          · have hsu : ¬ (s = u) := fun h' => hu h'.symm
            have : countUrl [{ rec with entry_url := some s }] u = 0 := by
              simp [countUrl, hsu]
            rw [this]
            simpa using h1 u
        · intro u
          simp only [List.mem_cons]
          rw [h2 u]
          constructor
          · rintro (rfl | h | h)
            · exact Or.inr ⟨{ rec with entry_url := some u }, by simp, rfl⟩
            · exact Or.inl h
            · obtain ⟨r, hr, hu⟩ := h
              exact Or.inr ⟨r, List.mem_append_left _ hr, hu⟩
          · rintro (h | ⟨r, hr, hu⟩)
            · exact Or.inr (Or.inl h)
            · rcases List.mem_append.mp hr with hr | hr
              · exact Or.inr (Or.inr ⟨r, hr, hu⟩)
              · have : r = { rec with entry_url := some s } := by simpa using hr
                subst this
                simp only [RawRecord.mk.injEq] at hu
                left
                exact (Option.some.injEq _ _ ▸ hu).symm
    · rw [if_neg hv]; exact ⟨h1, h2⟩

theorem foldl_step1_inv {seed : List Str} (rows : List RawRecord)
    {st : List Str × List RawRecord} (h : dedupInv seed st) :
    dedupInv seed (rows.foldl step1 st) := by
  induction rows generalizing st with
  | nil => exact h
  | cons r rest ih => exact ih (step1_inv h r)

/-- C1 — confirmed: during a run the `seen_urls` set (seeded from the
persisted store) only ever grows, and the accumulated record list holds
at most one record per canonical URL; a fresh valid canonical URL
occurring twice across the listing pages yields exactly one retained
record. -/
theorem dedup_monotone_and_unique :
    (∀ seed pages (u : Str), u ∈ seed → u ∈ (harvest seed pages).1) ∧
    (∀ seed pages more (u : Str),
      u ∈ (harvest seed pages).1 → u ∈ (harvest seed (pages ++ more)).1) ∧
    (∀ seed pages (u : Str), countUrl (harvest seed pages).2 u ≤ 1) ∧
    (∀ seed pages (u : Str), u ∉ seed → 2 ≤ occCount pages u →
      countUrl (harvest seed pages).2 u = 1) := by
  have hinv : ∀ seed pages, dedupInv seed (harvest seed pages) := by
    intro seed pages
    rw [harvest_eq_foldl]
    exact foldl_step1_inv _ ⟨fun u => by simp [countUrl],
      fun u => by simp [hasUrl]⟩
  refine ⟨?_, ?_, ?_, ?_⟩
  · intro seed pages u hu
    rw [harvest_eq_foldl]
    exact foldl_step1_seen_mono _ hu
  · intro seed pages more u hu
    rw [harvest_eq_foldl] at hu ⊢
    rw [List.flatten_append, List.foldl_append]
    exact foldl_step1_seen_mono _ hu
  · intro seed pages u
    exact (hinv seed pages).1 u
  · intro seed pages u hseed hocc
    have hpos : 0 < occCount pages u := lt_of_lt_of_le (by norm_num) hocc
    rw [occCount] at hpos
    obtain ⟨r, hr, hcv⟩ := List.countP_pos_iff.mp hpos
    rw [decide_eq_true_eq] at hcv
    have hseen : u ∈ (harvest seed pages).1 := by
      rw [harvest_eq_foldl]
      exact foldl_step1_seen_of_occ hr hcv
    have hhas : hasUrl (harvest seed pages).2 u := by
      rcases ((hinv seed pages).2 u).mp hseen with h | h
      · exact absurd h hseed
      · exact h
    exact Nat.le_antisymm ((hinv seed pages).1 u) (countUrl_pos.mpr hhas)

/-- Witness for `dedup_monotone_and_unique`: the same valid canonical URL
on two pages yields exactly one retained record. -/
theorem dedup_monotone_and_unique_witness :
    countUrl (harvest []
      [[{ entry_url := some "https://www.thegradcafe.com/result/7".toList }],
       [{ entry_url := some "https://www.thegradcafe.com/result/7".toList }]]).2
      "https://www.thegradcafe.com/result/7".toList = 1 :=
  dedup_monotone_and_unique.2.2.2 []
    [[{ entry_url := some "https://www.thegradcafe.com/result/7".toList }],
     [{ entry_url := some "https://www.thegradcafe.com/result/7".toList }]]
    "https://www.thegradcafe.com/result/7".toList (by decide) (by decide)

/-! ## Claim C5: failed listing pages and the early stop -/

/-- C5 counterexample: two consecutive listing pages whose fetch fails do
NOT trigger the early stop — the `continue` in `scrape_data` skips the
`pages_with_no_new` update entirely — so a third page is still processed
and its record retained.  Under the claim, the run would have stopped
after page 2 with `earlyStopped = true` and no records. -/
theorem failed_pages_do_not_trigger_early_stop :
    (scrape_pages
      [none, none, some [{ entry_url := some "https://www.thegradcafe.com/result/9".toList }]]
      ([], []) 0).2 = false ∧
    (scrape_pages
      [none, none, some [{ entry_url := some "https://www.thegradcafe.com/result/9".toList }]]
      ([], []) 0).1.2.length = 1 := by
  decide

/-- C5 (amended): a listing page whose fetch fails is skipped without
aborting the run and adds no records, but it leaves the
consecutive-no-new counter (and all other state) untouched; only
successfully fetched pages yielding zero newly-discovered records
increment the counter, and 2 consecutive such fetched pages trigger the
early stop. -/
theorem failed_page_skipped_counter_untouched :
    (∀ rest (st : List Str × List RawRecord) (cnt : Nat),
      scrape_pages (none :: rest) st cnt = scrape_pages rest st cnt) ∧
    (∀ p₁ p₂ rest (st : List Str × List RawRecord),
      (processPage st p₁).2 = 0 →
      (processPage (processPage st p₁).1 p₂).2 = 0 →
      scrape_pages (some p₁ :: some p₂ :: rest) st 0 =
        ((processPage (processPage st p₁).1 p₂).1, true)) := by
  constructor
  · intro rest st cnt
    rfl
  · intro p₁ p₂ rest st h1 h2
    simp only [scrape_pages, h1, h2, STOP_AFTER_PAGES_WITH_NO_NEW]
    norm_num

/-- Witness for `failed_page_skipped_counter_untouched`: two empty fetched
pages trigger the early stop. -/
theorem failed_page_skipped_counter_untouched_witness :
    scrape_pages [some [], some []] ([], []) 0 =
      ((([], []), true) : (List Str × List RawRecord) × Bool) :=
  failed_page_skipped_counter_untouched.2 [] [] [] ([], []) (by decide) (by decide)

/-! ## Claim C7: `_safe_fetch_html` (retry with linear backoff)

The network is an oracle `fetch : Nat → Option Str` giving the outcome of
each attempt (`none` = a transport-level failure, i.e. one of the caught
`HTTPError / URLError / socket.timeout / TimeoutError`).  The model
returns the payload (if any), the number of attempts made, and the list
of sleep delays executed (`time.sleep(BACKOFF_S * attempt)` runs after
every failed attempt). -/

def RETRIES : Nat := 3

def BACKOFF_S : ℚ := 3 / 2

def safe_fetch_aux (fetch : Nat → Option Str) : List Nat → Option Str × Nat × List ℚ
  | [] => (none, 0, [])
  | attempt :: rest =>
    match fetch attempt with
    | some html => (some html, 1, [])
    | none =>
      let r := safe_fetch_aux fetch rest
      (r.1, r.2.1 + 1, BACKOFF_S * (attempt : ℚ) :: r.2.2)

/-- `_safe_fetch_html`: `for attempt in range(1, RETRIES + 1)`. -/
def safe_fetch_html (fetch : Nat → Option Str) : Option Str × Nat × List ℚ :=
  safe_fetch_aux fetch (List.range' 1 RETRIES)

/-- C7 — confirmed: resilient fetch makes at most `RETRIES = 3` attempts;
it returns no payload exactly when all 3 attempts fail (so exhaustion
degrades to `None` instead of raising — the function is total on every
oracle); any payload returned is the result of one of the attempts; and
the sleep delays are the linearly increasing `BACKOFF_S * attempt`
sequence. -/
theorem resilient_fetch_contract (fetch : Nat → Option Str) :
    (safe_fetch_html fetch).2.1 ≤ RETRIES ∧
    ((safe_fetch_html fetch).1 = none ↔
      fetch 1 = none ∧ fetch 2 = none ∧ fetch 3 = none) ∧
    (∀ html, (safe_fetch_html fetch).1 = some html →
      fetch 1 = some html ∨ fetch 2 = some html ∨ fetch 3 = some html) ∧
    (safe_fetch_html fetch).2.2 =
      (List.range' 1 (safe_fetch_html fetch).2.2.length).map
        (fun a => BACKOFF_S * (a : ℚ)) := by
  have hr : List.range' 1 RETRIES = [1, 2, 3] := by decide
  refine ⟨?_, ?_, ?_, ?_⟩ <;>
    cases h1 : fetch 1 <;> cases h2 : fetch 2 <;> cases h3 : fetch 3 <;>
      simp [safe_fetch_html, safe_fetch_aux, hr, h1, h2, h3, RETRIES] <;>
      norm_num [List.range']

/-- Witness for `resilient_fetch_contract`: the all-fail oracle yields no
payload, and a first-attempt success is one of the attempts. -/
theorem resilient_fetch_contract_witness :
    (safe_fetch_html (fun _ => none)).1 = none ∧
    (some ['x'] = some ['x'] ∨ some ['x'] = some ['x'] ∨ some ['x'] = some ['x']) :=
  ⟨(resilient_fetch_contract (fun _ => none)).2.1.mpr ⟨rfl, rfl, rfl⟩,
   (resilient_fetch_contract (fun _ => some ['x'])).2.2.1 ['x'] rfl⟩

/-! ## `clean_update`: text cleanup and start term/year inference

`_clean_text` removes HTML tags (`re.sub(r"<[^>]+>", "", s)`), collapses
whitespace runs to single spaces, strips, and maps empty to `None`. -/

theorem splitFirst_post_length {ch : Char} {s pre post : Str}
    (h : splitFirst ch s = some (pre, post)) : post.length < s.length := by
  rw [(splitFirst_some h).1]
  simp [List.length_append]
  omega

/-- `re.sub(r"<[^>]+>", "", s)` with explicit fuel (any fuel ≥ length of
the input is enough, the wrapper passes the length): each leftmost match
runs from a `<` to the next `>` with at least one character in between. -/
def stripTagsF : Nat → Str → Str
  | 0, s => s
  | _, [] => []
  | fuel + 1, c :: rest =>
    if c = '<' then
      match splitFirst '>' rest with
      | some (inner, after) =>
        if inner ≠ [] then stripTagsF fuel after else c :: stripTagsF fuel rest
      | none => c :: stripTagsF fuel rest
    else c :: stripTagsF fuel rest

def stripTags (s : Str) : Str := stripTagsF s.length s

/-- `re.sub(r"\s+", " ", s)`: collapse each whitespace run to one space. -/
def collapseWs : Str → Str
  | [] => []
  | [c] => if isPySpace c then [' '] else [c]
  | c :: c' :: rest =>
    if isPySpace c && isPySpace c' then collapseWs (c' :: rest)
    else (if isPySpace c then ' ' else c) :: collapseWs (c' :: rest)

/-- `clean_update._clean_text`. -/
def clean_text (s : Option Str) : Option Str :=
  match s with
  | none => none
  | some s =>
    let t := stripStr (collapseWs (stripTags s))
    if t = [] then none else some t

example : clean_text (some "<b> hi   there </b>".toList) = some "hi there".toList := by decide

/-- The context alternation of `_extract_start_term_year`
(`start|starting|begins?|beginning|program begins|term|semester|matriculat|enroll|enrollment|cohort`),
with the optional group expanded. -/
def ctx_alternatives : List Str :=
  ["start", "starting", "begins", "begin", "beginning", "program begins",
   "term", "semester", "matriculat", "enroll", "enrollment", "cohort"].map String.toList

/-- `re.search(ctx_pat, hay, re.I)` on an already lowercased haystack:
some alternative occurs as a substring. -/
def hasContext (hayLower : Str) : Bool :=
  ctx_alternatives.any (fun w => containsSub hayLower w)

/-- Python regex `\w` (ASCII part). -/
def isWordChar (c : Char) : Bool := c.isAlphanum || c = '_'

/-- A `\b` holds before the match start: previous char absent or non-word. -/
def prevNonWord : Option Char → Bool
  | none => true
  | some c => !isWordChar c

/-- A `\b` holds after a word: next char absent or non-word. -/
def boundaryAfter : Str → Bool
  | [] => true
  | c :: _ => !isWordChar c

def tryStripPrefix : Str → Str → Option Str
  | [], s => some s
  | _ :: _, [] => none
  | p :: ps, c :: cs => if p = c then tryStripPrefix ps cs else none

/-- `\W*(20\d{2})\b`: skip non-word chars (the only stop position the
backtracking engine can use, since `2` is a word char), then a year
`20dd` followed by a boundary. -/
def matchYear (s : Str) : Option (Str × Str) :=
  match s.dropWhile (fun c => !isWordChar c) with
  | '2' :: '0' :: c :: d :: rest =>
    if c.isDigit && d.isDigit && boundaryAfter rest then some (['2', '0', c, d], rest)
    else none
  | _ => none

def firstSome {α : Type} : List (Option α) → Option α
  | [] => none
  | some a :: _ => some a
  | none :: rest => firstSome rest

/-- Try `\b(alt₁|alt₂|…)\b\W*(20\d{2})\b` anchored at the current
position: the ordered alternatives, each with the full continuation
(boundary, gap, year) checked, exactly as the backtracking engine does. -/
def wordYearAt (words : List Str) (prev : Option Char) (s : Str) : Option (Str × Str) :=
  if prevNonWord prev then
    firstSome (words.map (fun w =>
      match tryStripPrefix w s with
      | some rest =>
        if boundaryAfter rest then
          match matchYear rest with
          | some (y, _) => some (w, y)
          | none => none
        else none
      | none => none))
  else none

/-- `re.search`: leftmost match wins; scan positions left to right. -/
def searchWordYear (words : List Str) : Option Char → Str → Option (Str × Str)
  | prev, [] => wordYearAt words prev []
  | prev, c :: rest =>
    match wordYearAt words prev (c :: rest) with
    | some r => some r
    | none => searchWordYear words (some c) rest

/-- The season alternation `(spring|summer|fall|autumn|winter)`. -/
def seasons : List Str :=
  ["spring", "summer", "fall", "autumn", "winter"].map String.toList

/-- The month alternation with optional groups expanded in the engine's
greedy order (e.g. `sep(?:t)?(?:ember)?` → september, sept, sepember,
sep). -/
def month_alternatives : List Str :=
  ["january", "jan", "february", "feb", "march", "mar", "april", "apr", "may",
   "june", "jun", "july", "jul", "august", "aug",
   "september", "sept", "sepember", "sep",
   "october", "oct", "november", "nov", "december", "dec"].map String.toList

/-- `clean_update._TERM_ALIASES`. -/
def TERM_ALIASES : List (Str × Str) :=
  [("spring", "Spring"), ("summer", "Summer"), ("fall", "Fall"),
   ("autumn", "Fall"), ("winter", "Winter")].map
    (fun p => (p.1.toList, p.2.toList))

/-- `clean_update._MONTH_TO_TERM`. -/
def MONTH_TO_TERM : List (Str × Str) :=
  [("jan", "Spring"), ("january", "Spring"), ("feb", "Spring"), ("february", "Spring"),
   ("mar", "Spring"), ("march", "Spring"), ("apr", "Spring"), ("april", "Spring"),
   ("may", "Summer"), ("jun", "Summer"), ("june", "Summer"),
   ("jul", "Summer"), ("july", "Summer"),
   ("aug", "Fall"), ("august", "Fall"),
   ("sep", "Fall"), ("sept", "Fall"), ("september", "Fall"),
   ("oct", "Fall"), ("october", "Fall"), ("nov", "Fall"), ("november", "Fall"),
   ("dec", "Winter"), ("december", "Winter")].map
    (fun p => (p.1.toList, p.2.toList))

/-- Python `dict.get`. -/
def lookupStr (l : List (Str × Str)) (k : Str) : Option Str :=
  match l.find? (fun p => decide (p.1 = k)) with
  | some p => some p.2
  | none => none

/-- `" ".join(t for t in texts if t)` followed by `_clean_text`. -/
def inference_hay (texts : List (Option Str)) : Option Str :=
  clean_text (some (List.intercalate [' ']
    ((texts.filterMap id).filter (fun t => !t.isEmpty))))

/-- `clean_update._extract_start_term_year`. -/
def extract_start_term_year (texts : List (Option Str)) : Option Str × Option Str :=
  match inference_hay texts with
  | none => (none, none)
  | some hay =>
    let hayL := lowerStr hay
    if ¬ hasContext hayL then (none, none)
    else
      match searchWordYear seasons none hayL with
      | some (season, year) => (lookupStr TERM_ALIASES season, some year)
      | none =>
        match searchWordYear month_alternatives none hayL with
        | some (month, year) => (lookupStr MONTH_TO_TERM month, some year)
        | none => (none, none)

example :
    extract_start_term_year [some "I wrote 'Fall 2026' but this is unrelated chatter.".toList] =
      (none, none) := by decide

example :
    extract_start_term_year [some "Program begins Aug 2026".toList] =
      (some "Fall".toList, some "2026".toList) := by decide

example :
    extract_start_term_year [some "starting autumn 2027".toList] =
      (some "Fall".toList, some "2027".toList) := by decide

/-- Context present in the (cleaned, lowercased) haystack, if any. -/
def hasContextOpt : Option Str → Bool
  | none => false
  | some hay => hasContext (lowerStr hay)

/-- C8 — confirmed: term/year inference returns `(None, None)` whenever
the concatenated, cleaned text contains no contextual keyword
(case-insensitively), even if a season and year appear; with context
present it first tries the season+year pattern (autumn aliased to Fall
via the alias table) and only on failure falls back to the
month-name+year pattern mapped through the month table; and the two
concrete examples of the claim evaluate as stated. -/
theorem term_inference_requires_context :
    (∀ texts, hasContextOpt (inference_hay texts) = false →
      extract_start_term_year texts = (none, none)) ∧
    extract_start_term_year
      [some "I wrote 'Fall 2026' but this is unrelated chatter.".toList] = (none, none) ∧
    extract_start_term_year [some "Program begins Aug 2026".toList] =
      (some "Fall".toList, some "2026".toList) ∧
    extract_start_term_year [some "starting autumn 2027".toList] =
      (some "Fall".toList, some "2027".toList) ∧
    (∀ texts hay season year, inference_hay texts = some hay →
      hasContext (lowerStr hay) = true →
      searchWordYear seasons none (lowerStr hay) = some (season, year) →
      extract_start_term_year texts = (lookupStr TERM_ALIASES season, some year)) ∧
    (∀ texts hay month year, inference_hay texts = some hay →
      hasContext (lowerStr hay) = true →
      searchWordYear seasons none (lowerStr hay) = none →
      searchWordYear month_alternatives none (lowerStr hay) = some (month, year) →
      extract_start_term_year texts = (lookupStr MONTH_TO_TERM month, some year)) := by
  refine ⟨?_, by decide, by decide, by decide, ?_, ?_⟩
  · intro texts h
    simp only [extract_start_term_year]
    cases hh : inference_hay texts with
    | none => rfl
    | some hay =>
      rw [hh] at h
      simp only [hasContextOpt] at h
      simp [h]
  · intro texts hay season year hh hctx hsearch
    simp only [extract_start_term_year, hh, hctx, hsearch]
    simp
  · intro texts hay month year hh hctx hs hm
    simp only [extract_start_term_year, hh, hctx, hs, hm]
    simp

/-- Witness for `term_inference_requires_context`: concrete applications
of each hypothesis-bearing conjunct. -/
theorem term_inference_requires_context_witness :
    extract_start_term_year [some "Fall 2026, nothing relevant".toList] = (none, none) ∧
    extract_start_term_year [some "starting autumn 2027".toList] =
      (lookupStr TERM_ALIASES "autumn".toList, some "2027".toList) ∧
    extract_start_term_year [some "Program begins Aug 2026".toList] =
      (lookupStr MONTH_TO_TERM "aug".toList, some "2026".toList) :=
  ⟨term_inference_requires_context.1 [some "Fall 2026, nothing relevant".toList] (by decide),
   term_inference_requires_context.2.2.2.2.1 [some "starting autumn 2027".toList]
     "starting autumn 2027".toList "autumn".toList "2027".toList
     (by decide) (by decide) (by decide),
   term_inference_requires_context.2.2.2.2.2 [some "Program begins Aug 2026".toList]
     "Program begins Aug 2026".toList "aug".toList "2026".toList
     (by decide) (by decide) (by decide) (by decide)⟩

/-! ## `scrape_update._parse_decision`

Model of `re.search(r"^(Accepted|Rejected|Wait listed|Waitlisted)\s+on\s+(.+)$", text, re.I)`
followed by the title-casing/`Wait Listed → Waitlisted` normalization and
the date routing. -/

/-- `scrape_update._normalize_none`: strip, empty → `None`. -/
def normalize_none (s : Option Str) : Option Str :=
  match s with
  | none => none
  | some s =>
    let t := stripStr s
    if t = [] then none else some t

/-- ASCII model of Python `str.title()`: a letter is upper-cased when the
previous character is not a letter, lower-cased otherwise. -/
def titleGo : Bool → Str → Str
  | _, [] => []
  | prevAlpha, c :: rest =>
    if c.isAlpha then
      (if prevAlpha then lowerChar c else upperChar c) :: titleGo true rest
    else c :: titleGo false rest

def titleStr (s : Str) : Str := titleGo false s

def WAIT_LISTED : Str := "Wait Listed".toList

/-- `str.replace("Wait Listed", "Waitlisted")`, fuelled (fuel ≥ length is
enough; the wrapper passes the length). -/
def replaceWaitListedF : Nat → Str → Str
  | 0, s => s
  | _, [] => []
  | fuel + 1, c :: rest =>
    if strPrefix WAIT_LISTED (c :: rest) then
      "Waitlisted".toList ++ replaceWaitListedF fuel (rest.drop 10)
    else c :: replaceWaitListedF fuel rest

def replaceWaitListed (s : Str) : Str := replaceWaitListedF s.length s

/-- `\s+(.+)$` at the end of the pattern, applied to the text after
`on`: the engine greedily consumes `k` whitespace characters (from the
maximal run down to one) and `(.+)` must then match a nonempty
newline-free remainder, where `$` also accepts a single trailing
newline. -/
def matchTailGo (w : Str) : Nat → Option Str
  | 0 => none
  | k + 1 =>
    let rest := w.drop (k + 1)
    let r' := if rest.getLast? = some '\n' then rest.dropLast else rest
    if r' ≠ [] ∧ '\n' ∉ r' then some r' else matchTailGo w k

def matchTail (w : Str) : Option Str :=
  matchTailGo w (w.takeWhile isPySpace).length

/-- The status alternation, in the pattern's order (case-insensitive). -/
def status_alternatives : List Str :=
  ["accepted", "rejected", "wait listed", "waitlisted"].map String.toList

/-- Try one status alternative at the start of the text (`^` anchor),
then `\s+on\s+(.+)$`; the single possible `\s+`-stop before `on` is the
end of the maximal whitespace run.  Returns `(group 1, group 2)`. -/
def matchStatusAt (t : Str) (alt : Str) : Option (Str × Str) :=
  if lowerStr (t.take alt.length) = alt then
    let rest := t.drop alt.length
    let m := (rest.takeWhile isPySpace).length
    if m = 0 then none
    else
      match rest.drop m with
      | c1 :: c2 :: rest3 =>
        if lowerChar c1 = 'o' ∧ lowerChar c2 = 'n' then
          match matchTail rest3 with
          | some g2 => some (t.take alt.length, g2)
          | none => none
        else none
      | _ => none
  else none

def matchStatusLine (t : Str) : Option (Str × Str) :=
  firstSome (status_alternatives.map (matchStatusAt t))

/-- `scrape_update._parse_decision`:
returns `(status, accepted_date, rejected_date)`. -/
def parse_decision (decision_text : Option Str) : Option Str × Option Str × Option Str :=
  match decision_text with
  | none => (none, none, none)
  | some t =>
    if t = [] then (none, none, none)
    else
      match matchStatusLine t with
      | some (g1, g2) =>
        let status := replaceWaitListed (titleStr (stripStr g1))
        let d := normalize_none (some g2)
        let statusL := lowerStr status
        let accepted_date := if statusL = "accepted".toList then d else none
        let rejected_date := if statusL = "rejected".toList then d else none
        (normalize_none (some status), accepted_date, rejected_date)
      | none => (normalize_none (some (stripStr t)), none, none)

example :
    parse_decision (some "Accepted on 29 Jan".toList) =
      (some "Accepted".toList, some "29 Jan".toList, none) := by decide

example :
    parse_decision (some "Wait listed on 3 Feb".toList) =
      (some "Waitlisted".toList, none, none) := by decide

/-- C9 — confirmed: `"<Status> on <date>"` is matched case-insensitively;
a matched `Accepted` routes the date to `accepted_date`, a matched
`Rejected` to `rejected_date`, `"Wait listed"` normalizes to
`"Waitlisted"`, and unmatched decision text is stored verbatim (the
already-stripped text itself) as the status with both dates absent. -/
theorem decision_parsing_contract :
    parse_decision (some "Accepted on 29 Jan".toList) =
      (some "Accepted".toList, some "29 Jan".toList, none) ∧
    parse_decision (some "Wait listed on 3 Feb".toList) =
      (some "Waitlisted".toList, none, none) ∧
    parse_decision (some "Rejected on 28 Jan".toList) =
      (some "Rejected".toList, none, some "28 Jan".toList) ∧
    parse_decision (some "ACCEPTED on 29 Jan".toList) =
      (some "Accepted".toList, some "29 Jan".toList, none) ∧
    (∀ t : Str, t ≠ [] → stripStr t = t → matchStatusLine t = none →
      parse_decision (some t) = (some t, none, none)) := by
  refine ⟨by decide, by decide, by decide, by decide, ?_⟩
  intro t ht hstrip hm
  simp only [parse_decision, if_neg ht, hm, normalize_none, hstrip, if_neg ht]

/-- Witness for `decision_parsing_contract`: unmatched text is stored
verbatim. -/
theorem decision_parsing_contract_witness :
    parse_decision (some "Interview".toList) = (some "Interview".toList, none, none) :=
  decision_parsing_contract.2.2.2.2 "Interview".toList (by decide) (by decide) (by decide)

/-! ## `load_update.parse_date`

Python `datetime.strptime(s, "%Y-%m-%d")` compiles the format to the
regex `(?P<Y>\d\d\d\d)-(?P<m>1[0-2]|0[1-9]|[1-9])-(?P<d>3[0-1]|[1-2]\d|0[1-9]|[1-9]| [1-9])`,
requires the whole string to be consumed, then builds a `date`, which
raises `ValueError` (caught, `None`) for a day out of range for the
month or a year below `MINYEAR = 1`.  Note the month and day may be a
single digit — `%m`/`%d` accept unpadded values — and `%d` (unlike
`%m`) additionally accepts a space-padded single digit (` [1-9]`). -/

/-- Month alternatives `1[0-2]|0[1-9]|[1-9]` in regex order, with the
numeric value and the remaining input of each candidate. -/
def monthCands : Str → List (Nat × Str)
  | a :: b :: rest =>
    (if a = '1' ∧ (b = '0' ∨ b = '1' ∨ b = '2') then [(10 + (b.toNat - 48), rest)] else []) ++
    (if a = '0' ∧ b.isDigit ∧ b ≠ '0' then [(b.toNat - 48, rest)] else []) ++
    (if a.isDigit ∧ a ≠ '0' then [(a.toNat - 48, b :: rest)] else [])
  | [a] => if a.isDigit ∧ a ≠ '0' then [(a.toNat - 48, [])] else []
  | [] => []

/-- Day alternatives `3[0-1]|[1-2]\d|0[1-9]|[1-9]| [1-9]` in regex order
(the last alternative is strptime's space-padded single digit). -/
def dayCands : Str → List (Nat × Str)
  | a :: b :: rest =>
    (if a = '3' ∧ (b = '0' ∨ b = '1') then [(30 + (b.toNat - 48), rest)] else []) ++
    (if (a = '1' ∨ a = '2') ∧ b.isDigit then
      [((a.toNat - 48) * 10 + (b.toNat - 48), rest)] else []) ++
    (if a = '0' ∧ b.isDigit ∧ b ≠ '0' then [(b.toNat - 48, rest)] else []) ++
    (if a.isDigit ∧ a ≠ '0' then [(a.toNat - 48, b :: rest)] else []) ++
    (if a = ' ' ∧ b.isDigit ∧ b ≠ '0' then [(b.toNat - 48, rest)] else [])
  | [a] => if a.isDigit ∧ a ≠ '0' then [(a.toNat - 48, [])] else []
  | [] => []

/-- The `%Y-%m-%d` regex with full-input consumption (`unconverted data
remains` check) and backtracking over the month/day alternatives. -/
def parseYMD (s : Str) : Option (Nat × Nat × Nat) :=
  match s with
  | y1 :: y2 :: y3 :: y4 :: c5 :: rest =>
    if y1.isDigit ∧ y2.isDigit ∧ y3.isDigit ∧ y4.isDigit ∧ c5 = '-' then
      let y := (y1.toNat - 48) * 1000 + (y2.toNat - 48) * 100 +
               (y3.toNat - 48) * 10 + (y4.toNat - 48)
      firstSome ((monthCands rest).map (fun mc =>
        match mc.2 with
        | c :: rest3 =>
          if c = '-' then
            firstSome ((dayCands rest3).map (fun dc =>
              if dc.2 = [] then some (y, mc.1, dc.1) else none))
          else none
        | [] => none))
    else none
  | _ => none

def isLeap (y : Nat) : Bool := (y % 4 = 0 && y % 100 ≠ 0) || y % 400 = 0

def daysInMonth (y m : Nat) : Nat :=
  if m = 2 then (if isLeap y then 29 else 28)
  else if m = 4 ∨ m = 6 ∨ m = 9 ∨ m = 11 then 30 else 31

/-- `load_update.parse_date`: `None` for falsy input, the parsed date for
a string `strptime` accepts, `None` when `strptime`/`date` raise
`ValueError`. -/
def parse_date (date_str : Option Str) : Option (Nat × Nat × Nat) :=
  match date_str with
  | none => none
  | some s =>
    if s = [] then none
    else
      match parseYMD s with
      | some (y, m, d) =>
        if 1 ≤ y ∧ 1 ≤ d ∧ d ≤ daysInMonth y m then some (y, m, d) else none
      | none => none

example : parse_date (some "2026-02-10".toList) = some (2026, 2, 10) := by decide

example : parse_date (some "2026-13-40".toList) = none := by decide

example : parse_date (some "2025-1-5".toList) = some (2025, 1, 5) := by decide

/-- Specification-side definition: the exact `YYYY-MM-DD` shape — four
digits, dash, exactly two digits, dash, exactly two digits. -/
def exactYMD (s : Str) : Bool :=
  match s with
  | [y1, y2, y3, y4, '-', m1, m2, '-', d1, d2] =>
    y1.isDigit && y2.isDigit && y3.isDigit && y4.isDigit &&
    m1.isDigit && m2.isDigit && d1.isDigit && d2.isDigit
  | _ => false

/-- C10 counterexample: `strptime("%Y-%m-%d")` accepts single-digit
month and day, so `"2025-1-5"` — not in the exact `YYYY-MM-DD` format —
parses to a date instead of `None`. -/
theorem parse_date_accepts_unpadded :
    parse_date (some "2025-1-5".toList) = some (2025, 1, 5) ∧
    exactYMD "2025-1-5".toList = false := by decide

def monthDigits1 (m1 : Char) : Bool := m1.isDigit && m1 ≠ '0'

def monthDigits2 (m1 m2 : Char) : Bool :=
  (m1 = '0' && m2.isDigit && m2 ≠ '0') || (m1 = '1' && (m2 = '0' || m2 = '1' || m2 = '2'))

def dayDigits1 (d1 : Char) : Bool := d1.isDigit && d1 ≠ '0'

def dayDigits2 (d1 d2 : Char) : Bool :=
  (d1 = '0' && d2.isDigit && d2 ≠ '0') || ((d1 = '1' || d1 = '2') && d2.isDigit) ||
  (d1 = '3' && (d2 = '0' || d2 = '1')) || (d1 = ' ' && d2.isDigit && d2 ≠ '0')

/-- Specification-side definition: the loosened `year-month-day` shape
that `%Y-%m-%d` actually accepts — 4 year digits and month/day written
with 1 or 2 characters in the ranges of the strptime character classes
(for the day this includes the space-padded ` [1-9]` alternative of
`%d`); a union of the four one/two-character shapes. -/
def looseYMD (s : Str) : Bool :=
  (match s with
   | [y1, y2, y3, y4, c1, m1, c2, d1] =>
     y1.isDigit && y2.isDigit && y3.isDigit && y4.isDigit &&
     c1 = '-' && c2 = '-' && monthDigits1 m1 && dayDigits1 d1
   | _ => false) ||
  (match s with
   | [y1, y2, y3, y4, c1, m1, c2, d1, d2] =>
     y1.isDigit && y2.isDigit && y3.isDigit && y4.isDigit &&
     c1 = '-' && c2 = '-' && monthDigits1 m1 && dayDigits2 d1 d2
   | _ => false) ||
  (match s with
   | [y1, y2, y3, y4, c1, m1, m2, c2, d1] =>
     y1.isDigit && y2.isDigit && y3.isDigit && y4.isDigit &&
     c1 = '-' && c2 = '-' && monthDigits2 m1 m2 && dayDigits1 d1
   | _ => false) ||
  (match s with
   | [y1, y2, y3, y4, c1, m1, m2, c2, d1, d2] =>
     y1.isDigit && y2.isDigit && y3.isDigit && y4.isDigit &&
     c1 = '-' && c2 = '-' && monthDigits2 m1 m2 && dayDigits2 d1 d2
   | _ => false)

theorem mem_ite_singleton {α : Type} {x y : α} {c : Prop} [Decidable c]
    (h : x ∈ (if c then [y] else [])) : c ∧ x = y := by
  by_cases hc : c
  · rw [if_pos hc] at h
    exact ⟨hc, List.mem_singleton.mp h⟩
  · rw [if_neg hc] at h
    exact absurd h (List.not_mem_nil x)

theorem firstSome_some {α : Type} {l : List (Option α)} {x : α}
    (h : firstSome l = some x) : some x ∈ l := by
  induction l with
  | nil => simp [firstSome] at h
  | cons o rest ih =>
    cases o with
    | some a =>
      simp only [firstSome] at h
      cases h
      exact List.mem_cons_self _ _
    | none =>
      simp only [firstSome] at h
      exact List.mem_cons_of_mem _ (ih h)

theorem monthCands_mem {r : Str} {mc : Nat × Str} (h : mc ∈ monthCands r) :
    (∃ a b t, r = a :: b :: t ∧ mc.2 = t ∧ monthDigits2 a b = true) ∨
    (∃ a, r = a :: mc.2 ∧ monthDigits1 a = true) := by
  rcases r with _ | ⟨a, r'⟩
  · exact absurd h (List.not_mem_nil _)
  · rcases r' with _ | ⟨b, t⟩
    · simp only [monthCands] at h
      obtain ⟨hc, heq⟩ := mem_ite_singleton h
      subst heq
      right
      exact ⟨a, rfl, by simp [monthDigits1, hc.1, hc.2]⟩
    · simp only [monthCands] at h
      rcases List.mem_append.mp h with h' | h'
      · rcases List.mem_append.mp h' with h'' | h''
        · obtain ⟨hc, heq⟩ := mem_ite_singleton h''
          subst heq
          left
          refine ⟨a, b, t, rfl, rfl, ?_⟩
          rcases hc.2 with hb | hb | hb <;> simp [monthDigits2, hc.1, hb]
        · obtain ⟨hc, heq⟩ := mem_ite_singleton h''
          subst heq
          left
          exact ⟨a, b, t, rfl, rfl, by simp [monthDigits2, hc.1, hc.2.1, hc.2.2]⟩
      · obtain ⟨hc, heq⟩ := mem_ite_singleton h'
        subst heq
        right
        exact ⟨a, rfl, by simp [monthDigits1, hc.1, hc.2]⟩

theorem dayCands_mem {r : Str} {dc : Nat × Str} (h : dc ∈ dayCands r) :
    (∃ a b t, r = a :: b :: t ∧ dc.2 = t ∧ dayDigits2 a b = true) ∨
    (∃ a, r = a :: dc.2 ∧ dayDigits1 a = true) := by
  rcases r with _ | ⟨a, r'⟩
  · exact absurd h (List.not_mem_nil _)
  · rcases r' with _ | ⟨b, t⟩
    · simp only [dayCands] at h
      obtain ⟨hc, heq⟩ := mem_ite_singleton h
      subst heq
      right
      exact ⟨a, rfl, by simp [dayDigits1, hc.1, hc.2]⟩
    · simp only [dayCands] at h
      rcases List.mem_append.mp h with h1 | h1
      · rcases List.mem_append.mp h1 with h2 | h2
        · rcases List.mem_append.mp h2 with h3 | h3
          · rcases List.mem_append.mp h3 with h4 | h4
            · obtain ⟨hc, heq⟩ := mem_ite_singleton h4
              subst heq
              left
              refine ⟨a, b, t, rfl, rfl, ?_⟩
              rcases hc.2 with hb | hb <;> simp [dayDigits2, hc.1, hb]
            · obtain ⟨hc, heq⟩ := mem_ite_singleton h4
              subst heq
              left
              refine ⟨a, b, t, rfl, rfl, ?_⟩
              rcases hc.1 with ha | ha <;> simp [dayDigits2, ha, hc.2]
          · obtain ⟨hc, heq⟩ := mem_ite_singleton h3
            subst heq
            left
            exact ⟨a, b, t, rfl, rfl, by simp [dayDigits2, hc.1, hc.2.1, hc.2.2]⟩
        · obtain ⟨hc, heq⟩ := mem_ite_singleton h2
          subst heq
          right
          exact ⟨a, rfl, by simp [dayDigits1, hc.1, hc.2]⟩
      · obtain ⟨hc, heq⟩ := mem_ite_singleton h1
        subst heq
        left
        exact ⟨a, b, t, rfl, rfl, by simp [dayDigits2, hc.1, hc.2.1, hc.2.2]⟩

theorem parseYMD_shape {s : Str} {v : Nat × Nat × Nat} (h : parseYMD s = some v) :
    looseYMD s = true := by
  rcases s with _ | ⟨y1, _ | ⟨y2, _ | ⟨y3, _ | ⟨y4, _ | ⟨c5, rest⟩⟩⟩⟩⟩ <;>
    simp only [parseYMD] at h
  all_goals try exact Option.noConfusion h
  by_cases hcond : y1.isDigit ∧ y2.isDigit ∧ y3.isDigit ∧ y4.isDigit ∧ c5 = '-'
  · rw [if_pos hcond] at h
    obtain ⟨hy1, hy2, hy3, hy4, hc5⟩ := hcond
    subst hc5
    obtain ⟨mc, hmc, hfmc⟩ := List.mem_map.mp (firstSome_some h)
    rcases hmc2 : mc.2 with _ | ⟨c, rest3⟩ <;> simp only [hmc2] at hfmc
    all_goals try exact Option.noConfusion hfmc
    · by_cases hc : c = '-'
      · rw [if_pos hc] at hfmc
        subst hc
        obtain ⟨dc, hdc, hfdc⟩ := List.mem_map.mp (firstSome_some hfmc)
        by_cases hdc2 : dc.2 = []
        · rcases monthCands_mem hmc with ⟨a, b, t, hrest, hmct, hmd⟩ | ⟨a, hrest, hmd⟩ <;>
            rcases dayCands_mem hdc with ⟨a', b', t', hrest3, hdct, hdd⟩ | ⟨a', hrest3, hdd⟩
          · have ht : t = '-' :: rest3 := hmct.symm.trans hmc2
            have ht' : t' = [] := hdct.symm.trans hdc2
            subst ht'
            rw [hrest, ht, hrest3]
            simp [looseYMD, hy1, hy2, hy3, hy4, hmd, hdd]
          · have ht : t = '-' :: rest3 := hmct.symm.trans hmc2
            rw [hdc2] at hrest3
            rw [hrest, ht, hrest3]
            simp [looseYMD, hy1, hy2, hy3, hy4, hmd, hdd]
          · have ht : mc.2 = '-' :: rest3 := hmc2
            have ht' : t' = [] := hdct.symm.trans hdc2
            subst ht'
            rw [hrest, hmc2, hrest3]
            simp [looseYMD, hy1, hy2, hy3, hy4, hmd, hdd]
          · rw [hdc2] at hrest3
            rw [hrest, hmc2, hrest3]
            simp [looseYMD, hy1, hy2, hy3, hy4, hmd, hdd]
        · rw [if_neg hdc2] at hfdc
          exact absurd hfdc (by simp)
      · rw [if_neg hc] at hfmc
        exact absurd hfmc (by simp)
  · rw [if_neg hcond] at h
    exact absurd h (by simp)

/-- C10 (amended): `parse_date` returns a date only for strings of the
shape `year-month-day` with 4 year digits, the month written with 1 or 2
digits, and the day written with 1 or 2 digits or as a space-padded
single digit (strptime's `%d` also accepts `" 5"`), denoting a
calendar-valid date; for `None`, the empty string and every other
string — including human-readable dates such as `"January 15, 2025"` —
it returns `None` without raising. -/
theorem parse_date_amended_contract :
    parse_date none = none ∧
    parse_date (some []) = none ∧
    parse_date (some "January 15, 2025".toList) = none ∧
    parse_date (some "2025-01-15".toList) = some (2025, 1, 15) ∧
    parse_date (some "2025-1-5".toList) = some (2025, 1, 5) ∧
    parse_date (some "2025-1- 5".toList) = some (2025, 1, 5) ∧
    parse_date (some "2026-13-40".toList) = none ∧
    parse_date (some "2025-02-30".toList) = none ∧
    (∀ (s : Str) (y m d : Nat), parse_date (some s) = some (y, m, d) →
      looseYMD s = true ∧ 1 ≤ y ∧ 1 ≤ d ∧ d ≤ daysInMonth y m) := by
  refine ⟨by decide, by decide, by decide, by decide, by decide, by decide, by decide,
    by decide, ?_⟩
  intro s y m d h
  simp only [parse_date] at h
  by_cases hs : s = []
  · rw [if_pos hs] at h
    exact absurd h (by simp)
  · rw [if_neg hs] at h
    cases hp : parseYMD s with
    | none =>
      rw [hp] at h
      exact absurd h (by simp)
    | some v =>
      obtain ⟨y', m', d'⟩ := v
      simp only [hp] at h
      by_cases hb : 1 ≤ y' ∧ 1 ≤ d' ∧ d' ≤ daysInMonth y' m'
      · rw [if_pos hb] at h
        simp only [Option.some.injEq, Prod.mk.injEq] at h
        obtain ⟨h1, h2, h3⟩ := h
        subst h1; subst h2; subst h3
        exact ⟨parseYMD_shape hp, hb.1, hb.2.1, hb.2.2⟩
      · rw [if_neg hb] at h
        exact absurd h (by simp)

/-- Witness for `parse_date_amended_contract`. -/
theorem parse_date_amended_contract_witness :
    looseYMD "2025-01-15".toList = true ∧ 1 ≤ 2025 ∧ 1 ≤ 15 ∧ 15 ≤ daysInMonth 2025 1 :=
  parse_date_amended_contract.2.2.2.2.2.2.2.2 "2025-01-15".toList 2025 1 15 (by decide)

/-! ## Detail-page enrichment (`_parse_result_page` + `_fetch_details_for_indices`)

The network/parsing of one `/result/<id>` page is an oracle
`Str → Option DetailFields`; `none` means `_safe_fetch_html` exhausted
its retries (cf. `safe_fetch_html`), in which case `_parse_result_page`
returns a dict with every enrichment field `None`.  The worker pool
writes each task's outcome only into its own record slot, so it is
modelled as per-index sequential application. -/

def LABEL_GARBAGE : List Str :=
  ["GRE General:", "GRE Verbal:", "Analytical Writing:", "Notes",
   "Undergrad GPA", "Degree Type", "Degree's Country of Origin",
   "Timeline", "Admissions", "Results", "Logo"].map String.toList

/-- `scrape_update._clean_bad_label_values`. -/
def clean_bad_label_values (v : Option Str) : Option Str :=
  match v with
  | none => none
  | some v =>
    let t := stripStr v
    if t = [] then none
    else if t ∈ LABEL_GARBAGE then none
    else if t.getLast? = some ':' ∧ t.length ≤ 25 then none
    else some t

structure DetailFields where
  degree : Option Str := none
  degree_level : Option Str := none
  is_international : Option Bool := none
  gpa : Option Str := none
  gre_total : Option Str := none
  gre_v : Option Str := none
  gre_aw : Option Str := none
  detail_comments : Option Str := none
  start_term : Option Str := none
  start_year : Option Str := none
deriving DecidableEq, Repr

/-- `_parse_result_page` returns all-`None` fields when the fetch fails. -/
def parse_result_page (fetched : Option DetailFields) : DetailFields :=
  match fetched with
  | none => {}
  | some d => d

/-- Python truthiness of an optional string. -/
def optTruthy : Option Str → Bool
  | none => false
  | some s => !s.isEmpty

/-- The merge step of `_fetch_details_for_indices`: prefer detail notes
over list-page comments when present, overwrite the enrichment fields,
then re-apply the label-artifact guard to the numeric-ish fields. -/
def mergeDetail (r : RawRecord) (extra : DetailFields) : RawRecord :=
  let r := if optTruthy extra.detail_comments then
      { r with comments := extra.detail_comments } else r
  { r with
    degree := extra.degree
    degree_level := extra.degree_level
    gpa := clean_bad_label_values extra.gpa
    gre_total := clean_bad_label_values extra.gre_total
    gre_v := clean_bad_label_values extra.gre_v
    gre_aw := clean_bad_label_values extra.gre_aw
    start_term := extra.start_term
    start_year := extra.start_year
    is_international := extra.is_international }

/-- `_fetch_details_for_indices`: for each given index, canonicalize and
validate the record's URL, write it back, and apply the detail outcome
to that record slot. -/
def fetch_details_for_indices (oracle : Str → Option DetailFields)
    (records : List RawRecord) (indices : List Nat) : List RawRecord :=
  indices.foldl (fun recs i =>
    match recs[i]? with
    | none => recs
    | some r =>
      let u := canonical_result_url r.entry_url
      if valid_result_url u then
        match u with
        | some s =>
          recs.set i (mergeDetail { r with entry_url := some s } (parse_result_page (oracle s)))
        | none => recs
      else recs) records

/-- `scrape_data` for a run short enough that no chunk boundary
(`CHUNK_SURVEY_PAGES = 25`) is reached: the page loop runs with the
dedup state, then the detail fetch is applied once to all accumulated
new records (either in the early-stop branch or as the final fetch). -/
def scrape_data (seed : List Str) (pages : List (Option (List RawRecord)))
    (oracle : Str → Option DetailFields) : List RawRecord :=
  let res := scrape_pages pages (seed, []) 0
  let records := res.1.2
  fetch_details_for_indices oracle records (List.range records.length)

/-! ## `clean_update.clean_data` -/

/-- `NormalizedRecord`: the fixed output schema of `clean_data`
(`US/International` and `GPA` keys are the `us_or_international` and
`gpa` fields). -/
structure NormalizedRecord where
  program : Option Str := none
  university : Option Str := none
  comments : Option Str := none
  date_posted : Option Str := none
  entry_url : Option Str := none
  applicant_status : Option Str := none
  accepted_date : Option Str := none
  rejected_date : Option Str := none
  start_term : Option Str := none
  start_year : Option Str := none
  us_or_international : Option Str := none
  gre_total : Option Str := none
  gre_v : Option Str := none
  gre_aw : Option Str := none
  degree_level : Option Str := none
  degree : Option Str := none
  gpa : Option Str := none
  source_url : Option Str := none
  scraped_at : Option Str := none
deriving DecidableEq, Repr

/-- `clean_update._normalize_us_international` on the tri-state boolean
the scraper stores (the defensive string branch is not reachable from
pipeline records, whose `is_international` is a boolean or `None`). -/
def normalize_us_international (v : Option Bool) : Option Str :=
  match v with
  | some true => some "International".toList
  | some false => some "American".toList
  | none => none

/-- One record of `clean_update.clean_data` (records produced by the
scraper carry their strings in `program_name_raw`/`university_raw`;
`_normalize_none` on a string field is `_clean_text`). -/
def cleanRecord (r : RawRecord) : NormalizedRecord :=
  let program := clean_text r.program_name_raw
  let university := clean_text r.university_raw
  let comments := clean_text r.comments
  let date_posted := clean_text r.date_posted
  let entry_url := clean_text r.entry_url
  let applicant_status := clean_text r.applicant_status
  let accepted_date := clean_text r.accepted_date
  let rejected_date := clean_text r.rejected_date
  let start_term0 := clean_text r.start_term
  let start_year0 := clean_text r.start_year
  let gre_total := clean_text r.gre_total
  let gre_v := clean_text r.gre_v
  let gre_aw := clean_text r.gre_aw
  let degree_level := clean_text r.degree_level
  let degree := clean_text r.degree
  let gpa := clean_text r.gpa
  let source_url := clean_text r.source_url
  let scraped_at := clean_text r.scraped_at
  let usintl := normalize_us_international r.is_international
  let tY :=
    if start_term0 = none ∨ start_year0 = none then
      let ty := extract_start_term_year [comments, applicant_status, program, university]
      ((if start_term0 = none then ty.1 else start_term0),
       (if start_year0 = none then ty.2 else start_year0))
    else (start_term0, start_year0)
  { program := program, university := university, comments := comments,
    date_posted := date_posted, entry_url := entry_url,
    applicant_status := applicant_status, accepted_date := accepted_date,
    rejected_date := rejected_date, start_term := tY.1, start_year := tY.2,
    us_or_international := usintl, gre_total := gre_total, gre_v := gre_v,
    gre_aw := gre_aw, degree_level := degree_level, degree := degree,
    gpa := gpa, source_url := source_url, scraped_at := scraped_at }

def clean_data (records : List RawRecord) : List NormalizedRecord :=
  records.map cleanRecord

/-! ## `load_update.main`: the persistence loader

One row of the `applicants` table as the loader inserts it.  The numeric
columns keep the pre-`safe_float` text: the float conversion is
deterministic and key-irrelevant, and IEEE floats are outside this
embedding.  `ON CONFLICT (url) DO NOTHING` has PostgreSQL semantics: a
row with a NULL `url` never conflicts with anything (unique constraints
treat NULLs as distinct), so it is always inserted. -/

structure DbRow where
  program : Option Str := none
  university : Option Str := none
  comments : Option Str := none
  date_added : Option (Nat × Nat × Nat) := none
  url : Option Str := none
  status : Option Str := none
  term : Option Str := none
  us_or_international : Option Str := none
  gpa : Option Str := none
  gre : Option Str := none
  gre_v : Option Str := none
  gre_aw : Option Str := none
  degree : Option Str := none
  llm_generated_program : Option Str := none
  llm_generated_university : Option Str := none
deriving DecidableEq, Repr

/-- Python `a or b` on optional strings. -/
def pyOr (a b : Option Str) : Option Str := if optTruthy a then a else b

/-- The `term_value` construction in `load_update.main`. -/
def term_value (term_part year_part : Option Str) : Option Str :=
  if optTruthy term_part ∧ optTruthy year_part then
    some (term_part.getD [] ++ ' ' :: year_part.getD [])
  else if optTruthy term_part then term_part
  else if optTruthy year_part then year_part
  else none

/-- The parameter dict of the `INSERT` statement. -/
def recordToRow (e : NormalizedRecord) : DbRow :=
  { program := e.program, university := e.university, comments := e.comments,
    date_added := parse_date e.date_posted, url := e.entry_url,
    status := e.applicant_status,
    term := term_value e.start_term e.start_year,
    us_or_international := e.us_or_international,
    gpa := e.gpa, gre := e.gre_total, gre_v := e.gre_v, gre_aw := e.gre_aw,
    degree := pyOr e.degree_level e.degree,
    llm_generated_program := none, llm_generated_university := none }

/-- `INSERT ... ON CONFLICT (url) DO NOTHING` and the resulting
`cur.rowcount` (1 = inserted, 0 = conflict-skipped). -/
def insertRow (store : List DbRow) (row : DbRow) : List DbRow × Nat :=
  match row.url with
  | some u =>
    if store.any (fun r => decide (r.url = some u)) then (store, 0)
    else (store ++ [row], 1)
  | none => (store ++ [row], 1)

/-- One loop iteration of `load_update.main` (`inserted += rowcount`). -/
def loadStep (acc : List DbRow × Nat) (e : NormalizedRecord) : List DbRow × Nat :=
  let r := insertRow acc.1 (recordToRow e)
  (r.1, acc.2 + r.2)

/-- `load_update.main` over an initial store: returns the final store and
the reported `inserted` count. -/
def load_main (store : List DbRow) (data : List NormalizedRecord) : List DbRow × Nat :=
  data.foldl loadStep (store, 0)

/-! ## Claim C2: loader idempotence -/

/-- Existence of a stored row keyed by URL `u`. -/
def hasUrlRow (store : List DbRow) (u : Str) : Prop :=
  ∃ r ∈ store, r.url = some u

theorem insertRow_length (store : List DbRow) (row : DbRow) :
    (insertRow store row).1.length = store.length + (insertRow store row).2 := by
  cases hu : row.url with
  | none => simp [insertRow, hu]
  | some u =>
    simp only [insertRow, hu]
    by_cases h : store.any (fun r => decide (r.url = some u)) = true
    · rw [if_pos h]; simp
    · rw [if_neg h]; simp

theorem loadStep_shift (data : List NormalizedRecord) :
    ∀ (st : List DbRow) (n : Nat),
      data.foldl loadStep (st, n) =
        ((data.foldl loadStep (st, 0)).1, n + (data.foldl loadStep (st, 0)).2) := by
  induction data with
  | nil => intro st n; simp
  | cons e rest ih =>
    intro st n
    rw [List.foldl_cons, List.foldl_cons]
    rw [show loadStep (st, n) e =
      ((insertRow st (recordToRow e)).1, n + (insertRow st (recordToRow e)).2) from rfl]
    rw [show loadStep (st, 0) e =
      ((insertRow st (recordToRow e)).1, 0 + (insertRow st (recordToRow e)).2) from rfl]
    rw [ih _ (n + (insertRow st (recordToRow e)).2),
        ih _ (0 + (insertRow st (recordToRow e)).2)]
    simp [Nat.add_assoc]

theorem load_main_cons (store : List DbRow) (e : NormalizedRecord)
    (data : List NormalizedRecord) :
    load_main store (e :: data) =
      ((load_main (insertRow store (recordToRow e)).1 data).1,
       (insertRow store (recordToRow e)).2 +
         (load_main (insertRow store (recordToRow e)).1 data).2) := by
  simp only [load_main, List.foldl_cons]
  rw [show loadStep (store, 0) e =
    ((insertRow store (recordToRow e)).1, 0 + (insertRow store (recordToRow e)).2) from rfl]
  rw [loadStep_shift]
  simp

theorem load_main_length (data : List NormalizedRecord) :
    ∀ store : List DbRow,
      (load_main store data).1.length = store.length + (load_main store data).2 := by
  induction data with
  | nil => intro store; rfl
  | cons e rest ih =>
    intro store
    rw [load_main_cons]
    have h := ih (insertRow store (recordToRow e)).1
    simp only at h ⊢
    rw [h, insertRow_length]
    omega

theorem insertRow_mono {r : DbRow} {store : List DbRow} (h : r ∈ store) (row : DbRow) :
    r ∈ (insertRow store row).1 := by
  cases hu : row.url with
  | none => simp only [insertRow, hu]; exact List.mem_append_left _ h
  | some u =>
    simp only [insertRow, hu]
    by_cases hc : store.any (fun r => decide (r.url = some u)) = true
    · rw [if_pos hc]; exact h
    · rw [if_neg hc]; exact List.mem_append_left _ h

theorem load_mono {r : DbRow} (data : List NormalizedRecord) :
    ∀ store : List DbRow, r ∈ store → r ∈ (load_main store data).1 := by
  induction data with
  | nil => intro store h; exact h
  | cons e rest ih =>
    intro store h
    rw [load_main_cons]
    exact ih _ (insertRow_mono h _)

theorem insertRow_has {store : List DbRow} {row : DbRow} {u : Str}
    (h : row.url = some u) : hasUrlRow (insertRow store row).1 u := by
  simp only [insertRow, h]
  by_cases hc : store.any (fun r => decide (r.url = some u)) = true
  · rw [if_pos hc]
    obtain ⟨r, hr, hru⟩ := List.any_eq_true.mp hc
    exact ⟨r, hr, of_decide_eq_true hru⟩
  · rw [if_neg hc]
    exact ⟨row, List.mem_append_right _ (List.mem_singleton.mpr rfl), h⟩

theorem load_has (data : List NormalizedRecord) :
    ∀ (store : List DbRow) {e : NormalizedRecord} {u : Str},
      e ∈ data → e.entry_url = some u → hasUrlRow (load_main store data).1 u := by
  induction data with
  | nil => intro store e u h; exact absurd h (List.not_mem_nil _)
  | cons e' rest ih =>
    intro store e u hmem hu
    rcases List.mem_cons.mp hmem with heq | htl
    · subst heq
      obtain ⟨r, hr, hru⟩ :=
        @insertRow_has store (recordToRow e) u
          (show (recordToRow e).url = some u from hu)
      rw [load_main_cons]
      exact ⟨r, load_mono rest _ hr, hru⟩
    · rw [load_main_cons]
      exact ih _ htl hu

theorem insertRow_skip {store : List DbRow} {row : DbRow} {u : Str}
    (h : row.url = some u) (hhas : hasUrlRow store u) :
    insertRow store row = (store, 0) := by
  simp only [insertRow, h]
  rw [if_pos]
  exact List.any_eq_true.mpr (let ⟨r, hr, hru⟩ := hhas; ⟨r, hr, decide_eq_true hru⟩)

theorem load_skip (data : List NormalizedRecord) :
    ∀ store : List DbRow,
      (∀ e ∈ data, ∃ u, e.entry_url = some u ∧ hasUrlRow store u) →
      load_main store data = (store, 0) := by
  induction data with
  | nil => intro store _; rfl
  | cons e rest ih =>
    intro store h
    obtain ⟨u, hu, hhas⟩ := h e (List.mem_cons_self _ _)
    rw [load_main_cons,
        insertRow_skip (show (recordToRow e).url = some u from hu) hhas]
    rw [show ((store, 0) : List DbRow × Nat).1 = store from rfl]
    rw [ih store (fun e' he' => h e' (List.mem_cons_of_mem _ he'))]
    simp

/-- C2 counterexample: a normalized record with an absent `entry_url` is
inserted by every run (a SQL NULL never conflicts under
`ON CONFLICT (url) DO NOTHING`), so running the loader twice on the same
single-record input leaves 2 rows where one run leaves 1. -/
theorem loader_null_url_not_idempotent :
    (load_main (load_main [] [({} : NormalizedRecord)]).1 [({} : NormalizedRecord)]).1.length = 2 ∧
    (load_main [] [({} : NormalizedRecord)]).1.length = 1 := by
  decide

/-- C2 (amended): the reported count is always the number of rows
actually inserted (final size = initial size + count); a record whose
`entry_url` key already exists in the store is skipped
(insert-or-ignore); and for inputs in which every record has a present
(non-NULL) `entry_url`, running the loader twice with identical input
yields the same final store state as running it once, with the second
run inserting 0 rows.  Records with an absent `entry_url` are re-inserted
by every run. -/
theorem loader_idempotent_on_keyed_records :
    (∀ (store : List DbRow) (data : List NormalizedRecord),
      (load_main store data).1.length = store.length + (load_main store data).2) ∧
    (∀ (store : List DbRow) (row : DbRow) (u : Str),
      row.url = some u → hasUrlRow store u → insertRow store row = (store, 0)) ∧
    (∀ (store : List DbRow) (data : List NormalizedRecord),
      (∀ e ∈ data, e.entry_url.isSome = true) →
      load_main (load_main store data).1 data = ((load_main store data).1, 0)) := by
  refine ⟨fun store data => load_main_length data store,
          fun _ _ _ h hhas => insertRow_skip h hhas, ?_⟩
  intro store data h
  apply load_skip
  intro e he
  obtain ⟨u, hu⟩ := Option.isSome_iff_exists.mp (h e he)
  exact ⟨u, hu, load_has data store he hu⟩

/-- Witness for `loader_idempotent_on_keyed_records`: a second identical
run over a keyed record changes nothing and reports 0 inserts. -/
theorem loader_idempotent_on_keyed_records_witness :
    load_main
      (load_main [] [({ entry_url := some "https://www.thegradcafe.com/result/7".toList } :
        NormalizedRecord)]).1
      [({ entry_url := some "https://www.thegradcafe.com/result/7".toList } :
        NormalizedRecord)] =
    ((load_main [] [({ entry_url := some "https://www.thegradcafe.com/result/7".toList } :
        NormalizedRecord)]).1, 0) :=
  loader_idempotent_on_keyed_records.2.2 []
    [({ entry_url := some "https://www.thegradcafe.com/result/7".toList } : NormalizedRecord)]
    (by decide)

/-! ## Claim C3: the end-to-end scenario

Two listing pages.  Page 1: one valid row with a detail URL and one
valid row without any detail URL.  Page 2: a row repeating page 1's
detail URL (in a non-canonical spelling) and one new row whose detail
fetch fails all `RETRIES = 3` attempts (its oracle entry is the
`_safe_fetch_html` outcome of an always-failing transport, cf.
`resilient_fetch_contract`). -/

def url101 : Str := "https://www.thegradcafe.com/result/101".toList

def url202 : Str := "https://www.thegradcafe.com/result/202".toList

def rowA : RawRecord :=
  { program_name_raw := some "CS PhD".toList,
    university_raw := some "JHU".toList,
    comments := some "Excited!".toList,
    date_posted := some "2025-01-15".toList,
    entry_url := some url101,
    applicant_status := some "Accepted".toList,
    accepted_date := some "29 Jan".toList,
    source_url := some "https://www.thegradcafe.com/survey/?page=1".toList,
    scraped_at := some "2025-02-01T00:00:00+00:00".toList }

/-- The row with no detail link: `_extract_entry_url` found nothing. -/
def rowB : RawRecord :=
  { program_name_raw := some "Math MS".toList,
    university_raw := some "UMD".toList,
    comments := some "No link here".toList,
    date_posted := some "2025-01-14".toList,
    entry_url := none,
    applicant_status := some "Rejected".toList,
    rejected_date := some "28 Jan".toList,
    source_url := some "https://www.thegradcafe.com/survey/?page=1".toList,
    scraped_at := some "2025-02-01T00:00:00+00:00".toList }

/-- Page 2 repeats `rowA`'s detail URL in a non-canonical spelling. -/
def rowA2 : RawRecord :=
  { rowA with entry_url := some "http://thegradcafe.com/result/101?ref=x#top".toList,
              source_url := some "https://www.thegradcafe.com/survey/?page=2".toList }

def rowC : RawRecord :=
  { program_name_raw := some "Bio PhD".toList,
    university_raw := some "MIT".toList,
    comments := some "Great school".toList,
    date_posted := some "2025-01-13".toList,
    entry_url := some url202,
    applicant_status := some "Accepted".toList,
    accepted_date := some "27 Jan".toList,
    source_url := some "https://www.thegradcafe.com/survey/?page=2".toList,
    scraped_at := some "2025-02-01T00:00:00+00:00".toList }

def detailA : DetailFields :=
  { degree := some "PhD".toList,
    degree_level := some "PhD".toList,
    is_international := some false,
    gpa := some "3.7".toList,
    gre_total := some "325".toList,
    gre_v := some "162".toList,
    gre_aw := some "4.5".toList,
    detail_comments := some "Detail notes".toList,
    start_term := some "Fall".toList,
    start_year := some "2025".toList }

/-- Detail-fetch outcomes: `url101` succeeds; every other URL's fetch
fails all 3 attempts, which by the resilient-fetch model yields no
payload. -/
def oracleC3 (u : Str) : Option DetailFields :=
  if u = url101 then some detailA
  else ((safe_fetch_html (fun _ => none)).1).map (fun _ => detailA)

def pagesC3 : List (Option (List RawRecord)) := [some [rowA, rowB], some [rowA2, rowC]]

def normalizedC3 : List NormalizedRecord := clean_data (scrape_data [] pagesC3 oracleC3)

example : (scrape_data [] pagesC3 oracleC3).length = 2 := by decide

/-- C3 counterexample: the harvester's row loop skips any row whose
canonical detail URL is absent or invalid (`if not _valid_result_url(u):
continue`), so the URL-less row of page 1 is dropped and the final
normalized output of the scenario has exactly 2 records, not 3 — and
none of them has an absent `entry_url`. -/
theorem end_to_end_two_records_not_three :
    normalizedC3.length = 2 ∧ (∀ e ∈ normalizedC3, e.entry_url.isSome = true) := by
  decide

/-- C3 (amended): in the scenario the final normalized output has exactly
2 records (the row lacking a detail URL is dropped by the harvester, and
the repeated URL is deduplicated); the failed-fetch record keeps every
enrichment field absent; and the store holds exactly 2 rows after one
load call (2 reported inserts) and still 2 rows after a second identical
load call (0 reported inserts). -/
theorem end_to_end_scenario_amended :
    normalizedC3.length = 2 ∧
    (∃ e ∈ normalizedC3, e.entry_url = some url202 ∧
      e.degree = none ∧ e.degree_level = none ∧ e.us_or_international = none ∧
      e.gpa = none ∧ e.gre_total = none ∧ e.gre_v = none ∧ e.gre_aw = none ∧
      e.start_term = none ∧ e.start_year = none) ∧
    (load_main [] normalizedC3).1.length = 2 ∧
    (load_main [] normalizedC3).2 = 2 ∧
    (load_main (load_main [] normalizedC3).1 normalizedC3).1.length = 2 ∧
    (load_main (load_main [] normalizedC3).1 normalizedC3).2 = 0 := by
  decide

end GradCafe
